import Mathlib

/-!
# Virtual memory manager (`vmmgr.c`): shallow embedding and verified properties

The C program keeps all simulated hardware in file-scope globals.  Here the
globals are the fields of one record `VM`, every C function becomes a pure
function that takes the record and returns the updated one, and C arrays are
total functions from an `int` index to the stored value (the entries inside
the declared bounds are the array).

`int` values are mathematical integers: the counters only ever grow by one
per translation, so they stay inside the 32-bit range for every run shorter
than `2^31` translations, and signed overflow is undefined in C anyway.
-/

namespace VirtualMem

/-! ## Constants -/

/-- The constant `#define PAGE_SIZE 256`. -/
abbrev PAGE_SIZE : Int := 256
/-- The constant `#define TLB_SIZE 16`. -/
abbrev TLB_SIZE : Nat := 16
/-- The constant `#define PAGE_TABLE_SIZE 256`. -/
abbrev PAGE_TABLE_SIZE : Nat := 256
/-- The constant `#define PHYSICAL_FRAMES 128`. -/
abbrev PHYSICAL_FRAMES : Nat := 128

/-! ## Data model -/

/-- One byte of physical memory or of the backing store, as `fread` delivers it. -/
abbrev Byte := Fin 256

/-- The file `BACKING_STORE.bin` as a fixed array of bytes addressed by file
offset; every read succeeds and the store is never written. -/
abbrev BackingStore := Int → Byte

/-- The global variables of `vmmgr.c`. -/
structure VM where
  page_table : Int → Int
  -- `int tlb[TLB_SIZE][2]`: row `i` is the pair `(tlb[i][0], tlb[i][1])`, page first,
  -- frame second
  tlb : Int → Int × Int
  tlb_usage : Int → Int
  tlb_counter : Int
  physical_memory : Int → Byte
  free_frames : Int → Int
  free_frame_count : Int
  fifo_queue : Int → Int
  fifo_head : Int
  fifo_tail : Int
  loaded_pages : Int → Int
  total_addresses : Int
  tlb_hits : Int
  page_faults : Int

/-- Array assignment `a[i] = v`. -/
@[macro_inline] def store {α : Type} (a : Int → α) (i : Int) (v : α) : Int → α :=
  fun j => if j = i then v else a j

/-- The values `0, 1, ..., n-1` taken by the control variable of
`for (int i = 0; i < n; i++)`. -/
def loopRange (n : Nat) : List Int := (List.range n).map Int.ofNat

/-- The loop `for (int i = 0; i < n; i++) a[i] = f(i);`. -/
def fillLoop {α : Type} (n : Nat) (f : Int → α) (a : Int → α) : Int → α :=
  (loopRange n).foldl (fun acc i => store acc i (f i)) a

/-- Static storage before `main` runs: every global is zero. -/
def boot : VM where
  page_table := fun _ => 0
  tlb := fun _ => (0, 0)
  tlb_usage := fun _ => 0
  tlb_counter := 0
  physical_memory := fun _ => 0
  free_frames := fun _ => 0
  free_frame_count := 0
  fifo_queue := fun _ => 0
  fifo_head := 0
  fifo_tail := 0
  loaded_pages := fun _ => 0
  total_addresses := 0
  tlb_hits := 0
  page_faults := 0

/-! ## The functions of `vmmgr.c` -/

/-- The C function `void init_structures(void)`. -/
def init_structures (s : VM) : VM :=
  { s with
    page_table := fillLoop PAGE_TABLE_SIZE (fun _ => -1) s.page_table
    tlb := fillLoop TLB_SIZE (fun _ => (-1, -1)) s.tlb
    tlb_usage := fillLoop TLB_SIZE (fun _ => 0) s.tlb_usage
    tlb_counter := 0
    free_frames := fillLoop PHYSICAL_FRAMES (fun i => PHYSICAL_FRAMES - 1 - i) s.free_frames
    free_frame_count := PHYSICAL_FRAMES
    fifo_head := 0
    fifo_tail := 0
    loaded_pages := fillLoop PHYSICAL_FRAMES (fun _ => -1) s.loaded_pages }

/-- The slot at which the scan of `tlb_lookup` stops: the first `i` with
`tlb[i][0] == page_number`, if there is one. -/
def tlb_find (s : VM) (page_number : Int) : Option Int :=
  (loopRange TLB_SIZE).find? (fun i => decide ((s.tlb i).1 = page_number))

/-- The C function `int tlb_lookup(int page_number, int *frame_number)`: the first component
is `some f` when the C function returns 1 having stored `f` through the
pointer, and `none` when it returns 0. -/
def tlb_lookup (s : VM) (page_number : Int) : Option Int × VM :=
  match tlb_find s page_number with
  | some i =>
    (some (s.tlb i).2,
     { s with
       tlb_usage := store s.tlb_usage i (s.tlb_counter + 1)
       tlb_counter := s.tlb_counter + 1
       tlb_hits := s.tlb_hits + 1 })
  | none => (none, s)

/-- The C function `int page_table_lookup(int page_number)`. -/
def page_table_lookup (s : VM) (page_number : Int) : Int :=
  s.page_table page_number

/-- The loop of `handle_page_fault` that clears every TLB row holding the
evicted page: `if (tlb[i][0] == oldest_page) tlb[i][0] = tlb[i][1] = -1;`
(a row that does not match keeps its own value). -/
def tlb_invalidate (t : Int → Int × Int) (oldest_page : Int) : Int → Int × Int :=
  (loopRange TLB_SIZE).foldl
    (fun t i => store t i (if (t i).1 = oldest_page then (-1, -1) else t i)) t

/-- The call `fseek(backing_store, page_number * PAGE_SIZE, SEEK_SET)` followed
by `fread(&physical_memory[frame_number * PAGE_SIZE], 1, PAGE_SIZE, backing_store)`. -/
def load_page (bs : BackingStore) (mem : Int → Byte) (page_number frame_number : Int) :
    Int → Byte :=
  fun i =>
    if frame_number * PAGE_SIZE ≤ i ∧ i < frame_number * PAGE_SIZE + PAGE_SIZE then
      bs (page_number * PAGE_SIZE + (i - frame_number * PAGE_SIZE))
    else mem i

/-- The `if`/`else` of `handle_page_fault` that picks the frame: pop the free
stack, or dequeue the oldest frame and unmap its page. -/
def choose_frame (s : VM) : Int × VM :=
  if s.free_frame_count > 0 then
    (s.free_frames (s.free_frame_count - 1),
     { s with free_frame_count := s.free_frame_count - 1 })
  else
    let oldest_frame := s.fifo_queue s.fifo_head
    let oldest_page := s.loaded_pages oldest_frame
    (oldest_frame,
     { s with
       fifo_head := Int.tmod (s.fifo_head + 1) PHYSICAL_FRAMES
       page_table := store s.page_table oldest_page (-1)
       tlb := tlb_invalidate s.tlb oldest_page })

/-- The C function `int handle_page_fault(int page_number)`. -/
def handle_page_fault (bs : BackingStore) (s : VM) (page_number : Int) : Int × VM :=
  let s1 : VM := { s with page_faults := s.page_faults + 1 }
  let frame_number := (choose_frame s1).1
  let s2 := (choose_frame s1).2
  (frame_number,
   { s2 with
     loaded_pages := store s2.loaded_pages frame_number page_number
     page_table := store s2.page_table page_number frame_number
     fifo_queue := store s2.fifo_queue s2.fifo_tail frame_number
     fifo_tail := Int.tmod (s2.fifo_tail + 1) PHYSICAL_FRAMES
     physical_memory := load_page bs s2.physical_memory page_number frame_number })

/-- The scan of `update_tlb`: returns `(lru_index, free_index)` as they stand
when the loop ends (by exhaustion or by `break`). -/
def update_tlb_scan (s : VM) : List Int → Int → Int × Int
  | [], lru_index => (lru_index, -1)
  | i :: rest, lru_index =>
    if (s.tlb i).1 = -1 then (lru_index, i)
    else update_tlb_scan s rest
      (if s.tlb_usage i < s.tlb_usage lru_index then i else lru_index)

/-- The `index` computed by `update_tlb`. -/
def update_tlb_index (s : VM) : Int :=
  let r := update_tlb_scan s (loopRange TLB_SIZE) 0
  if r.2 ≠ -1 then r.2 else r.1

/-- The C function `void update_tlb(int page_number, int frame_number)`. -/
def update_tlb (s : VM) (page_number frame_number : Int) : VM :=
  let index := update_tlb_index s
  { s with
    tlb := store s.tlb index (page_number, frame_number)
    tlb_usage := store s.tlb_usage index (s.tlb_counter + 1)
    tlb_counter := s.tlb_counter + 1 }

/-- The page number `(logical_address >> 8) & 0xFF` computed by `translate`. -/
def pageNumber (logical_address : Int) : Int :=
  Int.land (logical_address >>> (8 : Nat)) 0xFF

/-- The offset `logical_address & 0xFF` computed by `translate`. -/
def pageOffset (logical_address : Int) : Int :=
  Int.land logical_address 0xFF

/-- The conversion `signed char value = physical_memory[...]`. -/
def toSigned (b : Byte) : Int :=
  if b.val < 128 then (b.val : Int) else (b.val : Int) - 256

/-- The frame lookup of `translate` (the `if (!tlb_lookup(...)) { ... }` block):
the frame number it ends with and the state after it. -/
def resolve (bs : BackingStore) (s : VM) (page_number : Int) : Int × VM :=
  match (tlb_lookup s page_number).1 with
  | some frame_number => (frame_number, (tlb_lookup s page_number).2)
  | none =>
    let pt_frame := page_table_lookup s page_number
    let r : Int × VM :=
      if pt_frame = -1 then handle_page_fault bs s page_number else (pt_frame, s)
    (r.1, update_tlb r.2 page_number r.1)

/-- What one call of `translate` prints. -/
structure Output where
  logical_address : Int
  physical_address : Int
  value : Int
deriving DecidableEq, Repr

/-- The C function `void translate(int logical_address)`: the printed line and the new
state. -/
def translate (bs : BackingStore) (s : VM) (logical_address : Int) : Output × VM :=
  let page_number := pageNumber logical_address
  let offset := pageOffset logical_address
  let r := resolve bs s page_number
  let physical_address := r.1 * PAGE_SIZE + offset
  let value := toSigned (r.2.physical_memory physical_address)
  (⟨logical_address, physical_address, value⟩, r.2)

/-- The state in which `main` enters its read loop. -/
def initial : VM := init_structures boot

/-- The body of the read loop of `main`: `total_addresses++; translate(...)`. -/
def mainStep (bs : BackingStore) (s : VM) (logical_address : Int) : Output × VM :=
  translate bs { s with total_addresses := s.total_addresses + 1 } logical_address

/-- The state after `translate` has been called on each address of the list in
turn, starting from state `s`. -/
def runFrom (bs : BackingStore) (s : VM) (addrs : List Int) : VM :=
  addrs.foldl (fun s a => (translate bs s a).2) s

/-- The state after `init_structures` followed by one call of `translate` per
address of the list. -/
def run (bs : BackingStore) (addrs : List Int) : VM :=
  runFrom bs initial addrs

/-- The lines printed by calling `translate` on each address in turn from state `s`. -/
def outputs (bs : BackingStore) : VM → List Int → List Output
  | _, [] => []
  | s, a :: rest => (translate bs s a).1 :: outputs bs (translate bs s a).2 rest

/-! ## Observers of a run

These functions change nothing in the model; they only name what a call of
`translate` is about to do, so that statements can speak about it. -/

/-- The call `translate(a)` in state `s` reaches `handle_page_fault`: the TLB
lookup fails and the page-table entry is `-1`. -/
def takesFault (s : VM) (a : Int) : Bool :=
  decide (tlb_find s (pageNumber a) = none ∧ page_table_lookup s (pageNumber a) = -1)

/-- The call `translate(a)` in state `s` reaches the `else` branch of
`handle_page_fault` (no free frame, a resident page is evicted). -/
def takesEviction (s : VM) (a : Int) : Bool :=
  takesFault s a && !decide (s.free_frame_count > 0)

/-- How many of the calls `translate(a)`, for `a` running through the list from
state `s`, take the eviction branch. -/
def evictions (bs : BackingStore) : VM → List Int → Nat
  | _, [] => 0
  | s, a :: rest =>
    (if takesEviction s a then 1 else 0) + evictions bs (translate bs s a).2 rest

/-- The page numbers of an address list without repetitions, in order of first
appearance. -/
def distinctPages (addrs : List Int) : List Int :=
  addrs.foldl (fun acc a => if pageNumber a ∈ acc then acc else acc ++ [pageNumber a]) []

/-- Call number `i` (counting from 0) of the run over `addrs` is a page fault
that loads page `p`. -/
def loadsAt (bs : BackingStore) (addrs : List Int) (p : Int) (i : Nat) : Bool :=
  match addrs[i]? with
  | some a => takesFault (run bs (addrs.take i)) a && decide (pageNumber a = p)
  | none => false

/-- The number of the most recent call in the run over `addrs` that loaded page
`p`, if the page was loaded at all. -/
def lastLoad (bs : BackingStore) (addrs : List Int) (p : Int) : Option Nat :=
  (List.range addrs.length).reverse.find? (loadsAt bs addrs p)

/-- A concrete backing store for worked examples: the byte at offset `i` is
`i mod 256`. -/
def sampleStore : BackingStore := fun i => Fin.ofNat i.toNat

/-- An address list for worked examples: the first address of each of the
pages `0, 1, ..., 127`. -/
def coldAddrs : List Int := (List.range 128).map (fun i => (i : Int) * 256)

/-! ## Reachable states and the representation invariant -/

/-- The states the program can be in: the one `init_structures` produces, and
every state obtained from such a state by a call of `translate` on any `int`
or by the `total_addresses++` of the read loop. -/
inductive Reachable (bs : BackingStore) : VM → Prop
  | init : Reachable bs initial
  | step (s : VM) (a : Int) : Reachable bs s → Reachable bs (translate bs s a).2
  | tick (s : VM) : Reachable bs s →
      Reachable bs { s with total_addresses := s.total_addresses + 1 }

/-- Frame `f` is still on the free stack: it is one of the lowest
`free_frame_count` entries of `free_frames`. -/
def onFreeStack (s : VM) (f : Int) : Prop :=
  ∃ i, 0 ≤ i ∧ i < s.free_frame_count ∧ s.free_frames i = f

/-- The representation invariant tying the tables of a state together.  With
`k = 128 - free_frame_count` frames in use: the free stack is the one built by
`init_structures`, frames `0 .. k-1` are the ones in use and sit at their own
position in the FIFO ring, `loaded_pages` and `page_table` are inverse to each
other on them, every valid TLB row repeats a page-table entry, no page has two
TLB rows, and each used frame holds a copy of its page of the backing store. -/
structure Inv (bs : BackingStore) (s : VM) : Prop where
  count_lo : 0 ≤ s.free_frame_count
  count_hi : s.free_frame_count ≤ 128
  stack : ∀ i, 0 ≤ i → i < 128 → s.free_frames i = 127 - i
  queue : ∀ i, 0 ≤ i → i < 128 - s.free_frame_count → s.fifo_queue i = i
  head_lo : 0 ≤ s.fifo_head
  head_hi : s.fifo_head < 128
  head_zero : 0 < s.free_frame_count → s.fifo_head = 0
  tail_eq : s.fifo_tail = (s.fifo_head + (128 - s.free_frame_count)) % 128
  unused : ∀ f, 128 - s.free_frame_count ≤ f → f < 128 → s.loaded_pages f = -1
  used : ∀ f, 0 ≤ f → f < 128 - s.free_frame_count →
    0 ≤ s.loaded_pages f ∧ s.loaded_pages f < 256 ∧ s.page_table (s.loaded_pages f) = f
  mapped : ∀ p, 0 ≤ p → p < 256 → s.page_table p ≠ -1 →
    0 ≤ s.page_table p ∧ s.page_table p < 128 - s.free_frame_count ∧
      s.loaded_pages (s.page_table p) = p
  tlb_ok : ∀ i, 0 ≤ i → i < 16 → (s.tlb i).1 ≠ -1 →
    0 ≤ (s.tlb i).1 ∧ (s.tlb i).1 < 256 ∧ s.page_table (s.tlb i).1 = (s.tlb i).2 ∧
      (s.tlb i).2 ≠ -1
  tlb_uniq : ∀ i j, 0 ≤ i → i < 16 → 0 ≤ j → j < 16 → (s.tlb i).1 ≠ -1 →
    (s.tlb i).1 = (s.tlb j).1 → i = j
  memory : ∀ f o, 0 ≤ f → f < 128 - s.free_frame_count → 0 ≤ o → o < 256 →
    s.physical_memory (f * 256 + o) = bs (s.loaded_pages f * 256 + o)

/-! ## Further observers and specification-side definitions -/

/-- The call `translate(a)` in state `s` is a TLB hit: `tlb_lookup` returns 1. -/
def takesTlbHit (s : VM) (a : Int) : Bool :=
  (tlb_find s (pageNumber a)).isSome

/-- The call `translate(a)` in state `s` is a page-table hit: the TLB lookup
fails and the page-table entry is not `-1`. -/
def takesTableHit (s : VM) (a : Int) : Bool :=
  decide (tlb_find s (pageNumber a) = none ∧ page_table_lookup s (pageNumber a) ≠ -1)

/-- The state after the read loop of `main` has processed each address of the
list in turn, starting from state `s`. -/
def mainRunFrom (bs : BackingStore) (s : VM) (addrs : List Int) : VM :=
  addrs.foldl (fun s a => (mainStep bs s a).2) s

/-- The state in which `main` calls `print_stats` after reading the address list. -/
def mainRun (bs : BackingStore) (addrs : List Int) : VM :=
  mainRunFrom bs initial addrs

/-- How many iterations of the read loop of `main`, run over the list from state
`s`, are page-table hits. -/
def pageTableHits (bs : BackingStore) : VM → List Int → Nat
  | _, [] => 0
  | s, a :: rest =>
    (if takesTableHit s a then 1 else 0) + pageTableHits bs (mainStep bs s a).2 rest

/-- The number of frames `f` in `[0, 128)` that currently hold a page
(`loaded_pages[f] != -1`). -/
def occupiedFrames (s : VM) : Nat :=
  ((loopRange PHYSICAL_FRAMES).filter (fun f => decide (s.loaded_pages f ≠ -1))).length

/-- The value stream of a memory without any translation machinery: for each
logical address, the byte of the backing store at that offset, read as a
signed 8-bit integer. -/
def directLookup (bs : BackingStore) (addrs : List Int) : List Int :=
  addrs.map (fun a => toSigned (bs a))

/-- The entries of the FIFO ring waiting to be dequeued: the
`128 - free_frame_count` entries of `fifo_queue` at positions `fifo_head`,
`fifo_head + 1`, ... (modulo 128), up to but excluding `fifo_tail`. -/
def fifoSegment (s : VM) : List Int :=
  (loopRange (128 - s.free_frame_count).toNat).map
    (fun j => s.fifo_queue ((s.fifo_head + j) % 128))

/-- Call number `i` (counting from 0) of the run over `addrs` translates an
address of page `p`. -/
def usesAt (addrs : List Int) (p : Int) (i : Nat) : Bool :=
  match addrs[i]? with
  | some a => decide (pageNumber a = p)
  | none => false

/-- The number of the most recent call in the run over `addrs` that translated
an address of page `p` (by a TLB hit or by an insertion into the TLB), if there
was one. -/
def lastUse (addrs : List Int) (p : Int) : Option Nat :=
  (List.range addrs.length).reverse.find? (usesAt addrs p)

/-- The page evicted by a fault taken in state `s` with no free frame. -/
def victimPage (s : VM) : Int :=
  s.loaded_pages (s.fifo_queue s.fifo_head)

/-- The call `translate(a)` in state `s` evicts a page that has a TLB row. -/
def evictsCached (s : VM) (a : Int) : Prop :=
  takesEviction s a = true ∧ ∃ i, (0 ≤ i ∧ i < 16) ∧ (s.tlb i).1 = victimPage s

/-- Slot `j` holds the least recently used entry of the TLB after the run over
`addrs`: every other slot holds a page whose most recent translation came
strictly later. -/
def lruSlot (bs : BackingStore) (addrs : List Int) (j : Int) : Prop :=
  ∀ i, 0 ≤ i → i < 16 → i ≠ j →
    ∃ tj ti, lastUse addrs ((run bs addrs).tlb j).1 = some tj ∧
      lastUse addrs ((run bs addrs).tlb i).1 = some ti ∧ tj < ti

/-- The statement that TLB replacement is true LRU, for the run over `addrs`
followed by `translate(a)`: if all 16 slots are valid and the page of `a` is in
none of them, the call puts the page into the slot of the least recently used
entry and leaves the other 15 rows unchanged. -/
def lruReplacement (bs : BackingStore) (addrs : List Int) (a : Int) : Prop :=
  (∀ i, 0 ≤ i → i < 16 → ((run bs addrs).tlb i).1 ≠ -1) →
  (∀ i, 0 ≤ i → i < 16 → ((run bs addrs).tlb i).1 ≠ pageNumber a) →
  ∃ j, (0 ≤ j ∧ j < 16) ∧ lruSlot bs addrs j ∧
    ((translate bs (run bs addrs) a).2.tlb j).1 = pageNumber a ∧
    ∀ i, 0 ≤ i → i < 16 → i ≠ j →
      (translate bs (run bs addrs) a).2.tlb i = (run bs addrs).tlb i

/-- An address list for worked examples: pages `0, ..., 127` once each, then
page `0` again. -/
def lruAddrs : List Int := coldAddrs ++ [0]

/-! ## Basic facts about the building blocks -/

theorem store_apply {α : Type} (a : Int → α) (i : Int) (v : α) (j : Int) :
    store a i v j = if j = i then v else a j := rfl

theorem mem_loopRange (n : Nat) (i : Int) : i ∈ loopRange n ↔ 0 ≤ i ∧ i < n := by
  unfold loopRange
  constructor
  · intro h
    obtain ⟨k, hk, rfl⟩ := List.mem_map.1 h
    have := List.mem_range.1 hk
    constructor
    · exact Int.ofNat_nonneg k
    · exact Int.ofNat_lt.2 this
  · rintro ⟨h0, h1⟩
    refine List.mem_map.2 ⟨i.toNat, List.mem_range.2 ?_, ?_⟩
    · omega
    · show ((i.toNat : Nat) : Int) = i
      omega

theorem foldl_store_apply {α : Type} (g : α → Int → α)
    (hg : ∀ (x : α) (i : Int), g (g x i) i = g x i)
    (l : List Int) (t : Int → α) (j : Int) :
    l.foldl (fun acc i => store acc i (g (acc i) i)) t j
      = if j ∈ l then g (t j) j else t j := by
  induction l generalizing t with
  | nil => simp
  | cons i l ih =>
    rw [List.foldl_cons, ih]
    by_cases hji : j = i
    · subst hji
      by_cases hjl : j ∈ l <;> simp [store_apply, hjl, hg]
    · by_cases hjl : j ∈ l <;> simp [store_apply, hjl, hji]

theorem fillLoop_apply {α : Type} (n : Nat) (f : Int → α) (a : Int → α) (j : Int) :
    fillLoop n f a j = if 0 ≤ j ∧ j < n then f j else a j := by
  unfold fillLoop
  rw [foldl_store_apply (fun _ i => f i) (fun _ _ => rfl)]
  simp only [mem_loopRange]

theorem tlb_invalidate_apply (t : Int → Int × Int) (p i : Int) :
    tlb_invalidate t p i
      = if (0 ≤ i ∧ i < 16) ∧ (t i).1 = p then (-1, -1) else t i := by
  unfold tlb_invalidate
  rw [foldl_store_apply (fun x _ => if x.1 = p then (-1, -1) else x)]
  · simp only [mem_loopRange]
    by_cases h1 : 0 ≤ i ∧ i < 16 <;> by_cases h2 : (t i).1 = p <;> simp [h1, h2]
  · intro x _
    by_cases h : x.1 = p
    · simp only [h, if_true]
      by_cases h2 : (-1 : Int) = p <;> simp [h2]
    · simp [h]

theorem tlb_find_some {s : VM} {p i : Int} (h : tlb_find s p = some i) :
    (0 ≤ i ∧ i < 16) ∧ (s.tlb i).1 = p := by
  unfold tlb_find at h
  have h1 := List.mem_of_find?_eq_some h
  have h2 := List.find?_some h
  rw [mem_loopRange] at h1
  exact ⟨by simpa using h1, by simpa using h2⟩

theorem tlb_find_none {s : VM} {p : Int} (h : tlb_find s p = none) :
    ∀ i, 0 ≤ i → i < 16 → (s.tlb i).1 ≠ p := by
  unfold tlb_find at h
  rw [List.find?_eq_none] at h
  intro i h0 h1
  have := h i ((mem_loopRange _ _).2 ⟨h0, by simpa using h1⟩)
  simpa using this

theorem tlb_find_isSome {s : VM} {p i : Int} (h0 : 0 ≤ i) (h1 : i < 16)
    (hp : (s.tlb i).1 = p) : ∃ j, tlb_find s p = some j := by
  cases h : tlb_find s p with
  | none => exact absurd hp (tlb_find_none h i h0 h1)
  | some j => exact ⟨j, rfl⟩

theorem update_tlb_scan_range (s : VM) (l : List Int) (lru : Int)
    (hl : ∀ i ∈ l, 0 ≤ i ∧ i < 16) (h : 0 ≤ lru ∧ lru < 16) :
    (0 ≤ (update_tlb_scan s l lru).1 ∧ (update_tlb_scan s l lru).1 < 16) ∧
    ((update_tlb_scan s l lru).2 = -1 ∨
      (0 ≤ (update_tlb_scan s l lru).2 ∧ (update_tlb_scan s l lru).2 < 16)) := by
  induction l generalizing lru with
  | nil => exact ⟨h, Or.inl rfl⟩
  | cons i l ih =>
    have hi := hl i (List.mem_cons_self _ _)
    have hl2 : ∀ j ∈ l, 0 ≤ j ∧ j < 16 := fun j hj => hl j (List.mem_cons_of_mem _ hj)
    unfold update_tlb_scan
    by_cases h1 : (s.tlb i).1 = -1
    · simp only [h1, if_true]
      exact ⟨h, Or.inr hi⟩
    · simp only [h1, if_false]
      by_cases h2 : s.tlb_usage i < s.tlb_usage lru
      · simp only [h2, if_true]; exact ih i hl2 hi
      · simp only [h2, if_false]; exact ih lru hl2 h

theorem update_tlb_index_range (s : VM) :
    0 ≤ update_tlb_index s ∧ update_tlb_index s < 16 := by
  have h := update_tlb_scan_range s (loopRange TLB_SIZE) 0
    (fun i hi => by simpa using (mem_loopRange _ _).1 hi) (by decide)
  unfold update_tlb_index
  by_cases h1 : (update_tlb_scan s (loopRange TLB_SIZE) 0).2 = -1
  · simp only [h1, ne_eq, not_true_eq_false, if_false]; exact h.1
  · simp only [h1, ne_eq, not_false_eq_true, if_true]
    rcases h.2 with h2 | h2
    · exact absurd h2 h1
    · exact h2

/-! ## Address decomposition -/

theorem ldiff_255 (m : Nat) : Nat.ldiff 255 m = 255 - m % 256 := by
  apply Nat.eq_of_testBit_eq
  intro i
  have h1 : (255 : Nat) = 2 ^ 8 - 1 := by norm_num
  have h2 : 255 - m % 256 = 2 ^ 8 - (m % 2 ^ 8 + 1) := by norm_num; omega
  rw [Nat.testBit_ldiff, h2, Nat.testBit_two_pow_sub_succ (Nat.mod_lt _ (by norm_num)), h1,
    Nat.testBit_two_pow_sub_one, Nat.testBit_mod_two_pow]
  cases decide (i < 8) <;> simp

theorem land_255 (a : Int) : Int.land a 0xFF = a % 256 := by
  cases a with
  | ofNat n =>
    show ((n &&& 255 : Nat) : Int) = _
    have := Nat.and_pow_two_sub_one_eq_mod n 8
    norm_num at this
    rw [this]; simp
  | negSucc m =>
    show ((Nat.ldiff 255 m : Nat) : Int) = _
    rw [ldiff_255, Int.negSucc_eq]
    omega

theorem pageNumber_eq (a : Int) : pageNumber a = a / 256 % 256 := by
  unfold pageNumber
  rw [land_255, Int.shiftRight_eq_div_pow]
  norm_num

theorem pageOffset_eq (a : Int) : pageOffset a = a % 256 := by
  unfold pageOffset
  exact land_255 a

theorem pageNumber_range (a : Int) : 0 ≤ pageNumber a ∧ pageNumber a < 256 := by
  rw [pageNumber_eq]; omega

theorem pageOffset_range (a : Int) : 0 ≤ pageOffset a ∧ pageOffset a < 256 := by
  rw [pageOffset_eq]; omega

/-! ## The invariant holds in every reachable state -/

theorem handle_page_fault_free (bs : BackingStore) (s : VM) (p : Int)
    (h : 0 < s.free_frame_count) :
    handle_page_fault bs s p =
      (s.free_frames (s.free_frame_count - 1),
       { s with
         page_faults := s.page_faults + 1
         free_frame_count := s.free_frame_count - 1
         loaded_pages := store s.loaded_pages (s.free_frames (s.free_frame_count - 1)) p
         page_table := store s.page_table p (s.free_frames (s.free_frame_count - 1))
         fifo_queue := store s.fifo_queue s.fifo_tail (s.free_frames (s.free_frame_count - 1))
         fifo_tail := Int.tmod (s.fifo_tail + 1) PHYSICAL_FRAMES
         physical_memory :=
           load_page bs s.physical_memory p (s.free_frames (s.free_frame_count - 1)) }) := by
  simp [handle_page_fault, choose_frame, h]

theorem handle_page_fault_evict (bs : BackingStore) (s : VM) (p : Int)
    (h : ¬ 0 < s.free_frame_count) :
    handle_page_fault bs s p =
      (s.fifo_queue s.fifo_head,
       { s with
         page_faults := s.page_faults + 1
         fifo_head := Int.tmod (s.fifo_head + 1) PHYSICAL_FRAMES
         tlb := tlb_invalidate s.tlb (s.loaded_pages (s.fifo_queue s.fifo_head))
         loaded_pages := store s.loaded_pages (s.fifo_queue s.fifo_head) p
         page_table :=
           store (store s.page_table (s.loaded_pages (s.fifo_queue s.fifo_head)) (-1)) p
             (s.fifo_queue s.fifo_head)
         fifo_queue := store s.fifo_queue s.fifo_tail (s.fifo_queue s.fifo_head)
         fifo_tail := Int.tmod (s.fifo_tail + 1) PHYSICAL_FRAMES
         physical_memory :=
           load_page bs s.physical_memory p (s.fifo_queue s.fifo_head) }) := by
  simp [handle_page_fault, choose_frame, h]

theorem inv_initial (bs : BackingStore) : Inv bs initial := by
  constructor <;>
    simp only [initial, init_structures, boot, fillLoop_apply] <;> intros <;>
    first
      | omega
      | (simp_all; done)
      | (simp_all; omega)

theorem inv_tlb_lookup {bs : BackingStore} {s : VM} (h : Inv bs s) (p : Int) :
    Inv bs (tlb_lookup s p).2 := by
  unfold tlb_lookup
  cases tlb_find s p with
  | none => exact h
  | some i =>
    exact ⟨h.count_lo, h.count_hi, h.stack, h.queue, h.head_lo, h.head_hi, h.head_zero,
      h.tail_eq, h.unused, h.used, h.mapped, h.tlb_ok, h.tlb_uniq, h.memory⟩

theorem inv_update_tlb {bs : BackingStore} {s : VM} (h : Inv bs s) (p f : Int)
    (hp : 0 ≤ p ∧ p < 256) (hpt : s.page_table p = f) (hf : f ≠ -1)
    (hmiss : ∀ i, 0 ≤ i → i < 16 → (s.tlb i).1 ≠ p) :
    Inv bs (update_tlb s p f) := by
  have hidx := update_tlb_index_range s
  refine ⟨h.count_lo, h.count_hi, h.stack, h.queue, h.head_lo, h.head_hi, h.head_zero,
      h.tail_eq, h.unused, h.used, h.mapped, ?_, ?_, h.memory⟩
  · intro i h0 h1
    simp only [update_tlb, store_apply]
    by_cases hi : i = update_tlb_index s
    · simp only [hi, if_true]
      intro _
      exact ⟨hp.1, hp.2, hpt, hf⟩
    · simp only [hi, if_false]
      exact h.tlb_ok i h0 h1
  · intro i j hi0 hi1 hj0 hj1
    simp only [update_tlb, store_apply]
    by_cases hi : i = update_tlb_index s <;> by_cases hj : j = update_tlb_index s
    · intros; rw [hi, hj]
    · simp only [hi, hj, if_true, if_false]
      intro _ he
      exact absurd he.symm (hmiss j hj0 hj1)
    · simp only [hi, hj, if_true, if_false]
      intro _ he
      exact absurd he (hmiss i hi0 hi1)
    · simp only [hi, hj, if_false]
      exact h.tlb_uniq i j hi0 hi1 hj0 hj1

theorem tmod_succ_128 (x : Int) (h : 0 ≤ x) :
    Int.tmod (x + 1) PHYSICAL_FRAMES = (x + 1) % 128 := by
  rw [Int.tmod_eq_emod (by omega) (by decide)]
  rfl

theorem inv_handle_page_fault_free {bs : BackingStore} {s : VM} (h : Inv bs s) (p : Int)
    (hp : 0 ≤ p ∧ p < 256) (hpt : s.page_table p = -1) (h0 : 0 < s.free_frame_count) :
    Inv bs (handle_page_fault bs s p).2 := by
  have hc1 := h.count_lo
  have hc2 := h.count_hi
  have hfr : s.free_frames (s.free_frame_count - 1) = 128 - s.free_frame_count := by
    rw [h.stack _ (by omega) (by omega)]; omega
  have hhead := h.head_zero h0
  have htail : s.fifo_tail = 128 - s.free_frame_count := by
    rw [h.tail_eq, hhead]; omega
  rw [handle_page_fault_free bs s p h0, hfr, htail,
    tmod_succ_128 _ (by omega)]
  constructor <;> simp only [store_apply, load_page]
  · omega
  · omega
  · exact h.stack
  · intro i hi0 hi1
    by_cases hi : i = 128 - s.free_frame_count
    · simp only [hi, if_true]
    · simp only [hi, if_false]; exact h.queue i hi0 (by omega)
  · exact h.head_lo
  · exact h.head_hi
  · intro _; exact hhead
  · rw [hhead]; omega
  · intro f hf0 hf1
    have hne : f ≠ 128 - s.free_frame_count := by omega
    simp only [hne, if_false]
    exact h.unused f (by omega) hf1
  · intro f hf0 hf1
    by_cases hf : f = 128 - s.free_frame_count
    · simp only [hf, if_true]
      exact ⟨hp.1, hp.2, trivial⟩
    · simp only [hf, if_false]
      have hu := h.used f hf0 (by omega)
      have hne : s.loaded_pages f ≠ p := by
        intro he; rw [he, hpt] at hu; omega
      simp only [hne, if_false]
      exact hu
  · intro q hq0 hq1
    by_cases hq : q = p
    · simp only [hq, if_true]
      intro _
      refine ⟨by omega, by omega, trivial⟩
    · simp only [hq, if_false]
      intro hm
      have := h.mapped q hq0 hq1 hm
      have hne : s.page_table q ≠ 128 - s.free_frame_count := by omega
      simp only [hne, if_false]
      exact ⟨this.1, by omega, this.2.2⟩
  · intro i hi0 hi1 hv
    have := h.tlb_ok i hi0 hi1 hv
    have hne : (s.tlb i).1 ≠ p := by
      intro he; rw [he, hpt] at this; exact this.2.2.2 this.2.2.1.symm
    simp only [hne, if_false]
    exact this
  · exact h.tlb_uniq
  · intro f o hf0 hf1 ho0 ho1
    by_cases hf : f = 128 - s.free_frame_count
    · subst hf
      have hin : (128 - s.free_frame_count) * PAGE_SIZE ≤ (128 - s.free_frame_count) * 256 + o ∧
          (128 - s.free_frame_count) * 256 + o
            < (128 - s.free_frame_count) * PAGE_SIZE + PAGE_SIZE := by
        simp only [PAGE_SIZE]; omega
      simp only [hin, and_self, if_true]
      congr 1
      simp only [PAGE_SIZE]; omega
    · have hout : ¬ ((128 - s.free_frame_count) * PAGE_SIZE ≤ f * 256 + o ∧
          f * 256 + o < (128 - s.free_frame_count) * PAGE_SIZE + PAGE_SIZE) := by
        simp only [PAGE_SIZE]; omega
      simp only [hout, hf, if_false]
      exact h.memory f o hf0 (by omega) ho0 ho1

theorem inv_handle_page_fault_evict {bs : BackingStore} {s : VM} (h : Inv bs s) (p : Int)
    (hp : 0 ≤ p ∧ p < 256) (hpt : s.page_table p = -1) (h0 : ¬ 0 < s.free_frame_count) :
    Inv bs (handle_page_fault bs s p).2 := by
  have hc : s.free_frame_count = 0 := by have := h.count_lo; omega
  have hh0 := h.head_lo
  have hh1 := h.head_hi
  have hq : s.fifo_queue s.fifo_head = s.fifo_head := h.queue _ hh0 (by omega)
  have htail : s.fifo_tail = s.fifo_head := by rw [h.tail_eq, hc]; omega
  have he := h.used s.fifo_head hh0 (by omega)
  rw [handle_page_fault_evict bs s p h0, hq, htail, tmod_succ_128 _ hh0]
  constructor <;> simp only [store_apply, load_page, tlb_invalidate_apply, hc]
  · omega
  · omega
  · exact h.stack
  · intro i hi0 hi1
    by_cases hi : i = s.fifo_head
    · simp only [hi, if_true]
    · simp only [hi, if_false]; exact h.queue i hi0 (by omega)
  · omega
  · omega
  · intro hx; omega
  · omega
  · intro f hf0 hf1; omega
  · intro f hf0 hf1
    by_cases hf : f = s.fifo_head
    · simp only [hf, if_true]
      exact ⟨hp.1, hp.2, trivial⟩
    · simp only [hf, if_false]
      have hu := h.used f hf0 (by omega)
      have hne : s.loaded_pages f ≠ p := by
        intro hx; rw [hx, hpt] at hu; omega
      have hne2 : s.loaded_pages f ≠ s.loaded_pages s.fifo_head := by
        intro hx; rw [hx, he.2.2] at hu; exact hf hu.2.2.symm
      simp only [hne, hne2, if_false]
      exact hu
  · intro q hq0 hq1
    by_cases hqp : q = p
    · simp only [hqp, if_true]
      intro _
      exact ⟨hh0, by omega, trivial⟩
    · simp only [hqp, if_false]
      by_cases hqe : q = s.loaded_pages s.fifo_head
      · simp only [hqe, if_true]
        intro hx; exact absurd rfl hx
      · simp only [hqe, if_false]
        intro hm
        have := h.mapped q hq0 hq1 hm
        have hne : s.page_table q ≠ s.fifo_head := by
          intro hx; rw [hx] at this; exact hqe this.2.2.symm
        simp only [hne, if_false]
        exact ⟨this.1, by omega, this.2.2⟩
  · intro i hi0 hi1
    by_cases hie : (s.tlb i).1 = s.loaded_pages s.fifo_head
    · simp only [hi0, hi1, hie, and_self, if_true]
      intro hx; exact absurd rfl hx
    · simp only [hie, and_false, if_false]
      intro hv
      have := h.tlb_ok i hi0 hi1 hv
      have hne : (s.tlb i).1 ≠ p := by
        intro hx; rw [hx, hpt] at this; exact this.2.2.2 this.2.2.1.symm
      simp only [hne, if_false]
      exact this
  · intro i j hi0 hi1 hj0 hj1
    by_cases hie : (s.tlb i).1 = s.loaded_pages s.fifo_head
    · simp only [hi0, hi1, hie, and_self, if_true]
      intro hx; exact absurd rfl hx
    · simp only [hie, and_false, if_false]
      by_cases hje : (s.tlb j).1 = s.loaded_pages s.fifo_head
      · simp only [hj0, hj1, hje, and_self, if_true]
        intro hv hx; exact absurd hx hv
      · simp only [hje, and_false, if_false]
        exact h.tlb_uniq i j hi0 hi1 hj0 hj1
  · intro f o hf0 hf1 ho0 ho1
    by_cases hf : f = s.fifo_head
    · subst hf
      have hin : s.fifo_head * PAGE_SIZE ≤ s.fifo_head * 256 + o ∧
          s.fifo_head * 256 + o < s.fifo_head * PAGE_SIZE + PAGE_SIZE := by
        simp only [PAGE_SIZE]; omega
      simp only [hin, and_self, if_true]
      congr 1
      simp only [PAGE_SIZE]; omega
    · have hout : ¬ (s.fifo_head * PAGE_SIZE ≤ f * 256 + o ∧
          f * 256 + o < s.fifo_head * PAGE_SIZE + PAGE_SIZE) := by
        simp only [PAGE_SIZE]; omega
      simp only [hout, hf, if_false]
      exact h.memory f o hf0 (by omega) ho0 ho1

theorem inv_handle_page_fault {bs : BackingStore} {s : VM} (h : Inv bs s) (p : Int)
    (hp : 0 ≤ p ∧ p < 256) (hpt : s.page_table p = -1) :
    Inv bs (handle_page_fault bs s p).2 := by
  by_cases h0 : 0 < s.free_frame_count
  · exact inv_handle_page_fault_free h p hp hpt h0
  · exact inv_handle_page_fault_evict h p hp hpt h0

theorem handle_page_fault_frame {bs : BackingStore} {s : VM} (h : Inv bs s) (p : Int) :
    (handle_page_fault bs s p).1 =
      (if 0 < s.free_frame_count then 128 - s.free_frame_count else s.fifo_head) := by
  by_cases h0 : 0 < s.free_frame_count
  · have hc2 := h.count_hi
    rw [handle_page_fault_free bs s p h0, if_pos h0]
    show s.free_frames (s.free_frame_count - 1) = _
    rw [h.stack _ (by omega) (by omega)]; omega
  · have hc : s.free_frame_count = 0 := by have := h.count_lo; omega
    rw [handle_page_fault_evict bs s p h0, if_neg h0]
    exact h.queue _ h.head_lo (by have := h.head_hi; omega)

theorem handle_page_fault_frame_range {bs : BackingStore} {s : VM} (h : Inv bs s) (p : Int) :
    0 ≤ (handle_page_fault bs s p).1 ∧ (handle_page_fault bs s p).1 < 128 := by
  rw [handle_page_fault_frame h p]
  have := h.count_lo; have := h.count_hi; have := h.head_lo; have := h.head_hi
  split <;> omega

theorem handle_page_fault_page_table (bs : BackingStore) (s : VM) (p : Int) :
    (handle_page_fault bs s p).2.page_table p = (handle_page_fault bs s p).1 := by
  simp [handle_page_fault, store_apply]

theorem handle_page_fault_tlb_miss {bs : BackingStore} {s : VM} (h : Inv bs s) (p : Int)
    (hp : 0 ≤ p ∧ p < 256) (hpt : s.page_table p = -1) :
    ∀ i, 0 ≤ i → i < 16 → ((handle_page_fault bs s p).2.tlb i).1 ≠ p := by
  intro i hi0 hi1
  have hold : (s.tlb i).1 ≠ p := by
    intro hx
    have := h.tlb_ok i hi0 hi1 (by omega)
    rw [hx, hpt] at this
    exact this.2.2.2 this.2.2.1.symm
  by_cases h0 : 0 < s.free_frame_count
  · rw [handle_page_fault_free bs s p h0]; exact hold
  · rw [handle_page_fault_evict bs s p h0]
    simp only [tlb_invalidate_apply]
    split
    · show (-1 : Int) ≠ p
      omega
    · exact hold

theorem resolve_hit (bs : BackingStore) {s : VM} {p i : Int} (h : tlb_find s p = some i) :
    resolve bs s p =
      ((s.tlb i).2,
       { s with
         tlb_usage := store s.tlb_usage i (s.tlb_counter + 1)
         tlb_counter := s.tlb_counter + 1
         tlb_hits := s.tlb_hits + 1 }) := by
  simp [resolve, tlb_lookup, h]

theorem resolve_mapped (bs : BackingStore) {s : VM} {p : Int} (h : tlb_find s p = none)
    (hpt : s.page_table p ≠ -1) :
    resolve bs s p = (s.page_table p, update_tlb s p (s.page_table p)) := by
  simp [resolve, tlb_lookup, h, page_table_lookup, hpt]

theorem resolve_fault (bs : BackingStore) {s : VM} {p : Int} (h : tlb_find s p = none)
    (hpt : s.page_table p = -1) :
    resolve bs s p =
      ((handle_page_fault bs s p).1,
       update_tlb (handle_page_fault bs s p).2 p (handle_page_fault bs s p).1) := by
  simp [resolve, tlb_lookup, h, page_table_lookup, hpt]

theorem inv_resolve {bs : BackingStore} {s : VM} (h : Inv bs s) (p : Int)
    (hp : 0 ≤ p ∧ p < 256) : Inv bs (resolve bs s p).2 := by
  cases hf : tlb_find s p with
  | some i =>
    rw [resolve_hit bs hf]
    have := inv_tlb_lookup h p
    simpa [tlb_lookup, hf] using this
  | none =>
    by_cases hpt : s.page_table p = -1
    · rw [resolve_fault bs hf hpt]
      have hr := handle_page_fault_frame_range h p
      exact inv_update_tlb (inv_handle_page_fault h p hp hpt) p _ hp
        (handle_page_fault_page_table bs s p) (by omega)
        (handle_page_fault_tlb_miss h p hp hpt)
    · rw [resolve_mapped bs hf hpt]
      exact inv_update_tlb h p _ hp rfl hpt (tlb_find_none hf)

theorem inv_translate {bs : BackingStore} {s : VM} (h : Inv bs s) (a : Int) :
    Inv bs (translate bs s a).2 :=
  inv_resolve h (pageNumber a) (pageNumber_range a)

theorem inv_of_reachable {bs : BackingStore} {s : VM} (h : Reachable bs s) : Inv bs s := by
  induction h with
  | init => exact inv_initial bs
  | step s a _ ih => exact inv_translate ih a
  | tick s _ ih =>
    exact ⟨ih.count_lo, ih.count_hi, ih.stack, ih.queue, ih.head_lo, ih.head_hi, ih.head_zero,
      ih.tail_eq, ih.unused, ih.used, ih.mapped, ih.tlb_ok, ih.tlb_uniq, ih.memory⟩

/-! ## Address decomposition (C10) -/

theorem pageNumber_pageOffset (a : Int) (h0 : 0 ≤ a) (h1 : a ≤ 65535) :
    pageNumber a * 256 + pageOffset a = a := by
  rw [pageNumber_eq, pageOffset_eq]
  omega

/-- C10: for every logical address `a` in `[0, 65535]` the page number
`(a >> 8) & 0xFF` and the offset `a & 0xFF` computed by `translate` both lie in
`[0, 255]`, and `pageNumber * 256 + offset = a`. -/
theorem address_decomposition (a : Int) (h0 : 0 ≤ a) (h1 : a ≤ 65535) :
    (0 ≤ pageNumber a ∧ pageNumber a ≤ 255) ∧ (0 ≤ pageOffset a ∧ pageOffset a ≤ 255) ∧
      pageNumber a * 256 + pageOffset a = a := by
  rw [pageNumber_eq, pageOffset_eq]
  omega

theorem address_decomposition_witness :
    (0 ≤ pageNumber 51966 ∧ pageNumber 51966 ≤ 255) ∧
      (0 ≤ pageOffset 51966 ∧ pageOffset 51966 ≤ 255) ∧
      pageNumber 51966 * 256 + pageOffset 51966 = 51966 :=
  address_decomposition 51966 (by decide) (by decide)

/-! ## TLB coherence (C2) -/

/-- C2: in every reachable state, a non-empty TLB slot `i` (page `p ≠ -1`, frame
`f`) names a real page whose page-table entry is mapped and equal to `f`: the
valid TLB rows are a subset of the mapped page-table entries, so no mapping
made stale by an eviction survives. -/
theorem tlb_coherence (bs : BackingStore) (s : VM) (hs : Reachable bs s) (i : Int)
    (hi0 : 0 ≤ i) (hi1 : i < 16) (hv : (s.tlb i).1 ≠ -1) :
    (0 ≤ (s.tlb i).1 ∧ (s.tlb i).1 < 256) ∧
      s.page_table (s.tlb i).1 = (s.tlb i).2 ∧ s.page_table (s.tlb i).1 ≠ -1 := by
  have h := (inv_of_reachable hs).tlb_ok i hi0 hi1 hv
  refine ⟨⟨h.1, h.2.1⟩, h.2.2.1, ?_⟩
  rw [h.2.2.1]
  exact h.2.2.2

set_option maxRecDepth 100000 in
theorem tlb_coherence_witness :
    (0 ≤ ((translate sampleStore initial 513).2.tlb 0).1 ∧
        ((translate sampleStore initial 513).2.tlb 0).1 < 256) ∧
      (translate sampleStore initial 513).2.page_table
          ((translate sampleStore initial 513).2.tlb 0).1
        = ((translate sampleStore initial 513).2.tlb 0).2 ∧
      (translate sampleStore initial 513).2.page_table
          ((translate sampleStore initial 513).2.tlb 0).1 ≠ -1 :=
  tlb_coherence sampleStore (translate sampleStore initial 513).2
    (Reachable.step initial 513 Reachable.init) 0 (by decide) (by decide) (by decide)

/-! ## Round trip of a page load (C3) -/

/-- C3: in a reachable state, a fault on an unmapped page `p` returns a frame
`f` in `[0, 128)` and leaves, for every offset `o` in `[0, 255]`,
`physical_memory[f*256 + o]` equal to byte `p*256 + o` of the backing store. -/
theorem page_load_round_trip (bs : BackingStore) (s : VM) (hs : Reachable bs s) (p : Int)
    (hp0 : 0 ≤ p) (hp1 : p < 256) (hun : s.page_table p = -1) (o : Int)
    (ho0 : 0 ≤ o) (ho1 : o ≤ 255) :
    (0 ≤ (handle_page_fault bs s p).1 ∧ (handle_page_fault bs s p).1 < 128) ∧
      (handle_page_fault bs s p).2.physical_memory ((handle_page_fault bs s p).1 * 256 + o)
        = bs (p * 256 + o) := by
  have h := inv_of_reachable hs
  have hi := inv_handle_page_fault h p ⟨hp0, hp1⟩ hun
  refine ⟨handle_page_fault_frame_range h p, ?_⟩
  have hin : (handle_page_fault bs s p).1 * PAGE_SIZE ≤ (handle_page_fault bs s p).1 * 256 + o ∧
      (handle_page_fault bs s p).1 * 256 + o
        < (handle_page_fault bs s p).1 * PAGE_SIZE + PAGE_SIZE := by
    simp only [PAGE_SIZE]; omega
  have hidx : p * PAGE_SIZE +
      ((handle_page_fault bs s p).1 * 256 + o - (handle_page_fault bs s p).1 * PAGE_SIZE)
        = p * 256 + o := by
    simp only [PAGE_SIZE]; omega
  show load_page bs _ p (handle_page_fault bs s p).1 _ = _
  unfold load_page
  rw [if_pos hin, hidx]

theorem page_load_round_trip_witness :
    (0 ≤ (handle_page_fault sampleStore initial 5).1 ∧
        (handle_page_fault sampleStore initial 5).1 < 128) ∧
      (handle_page_fault sampleStore initial 5).2.physical_memory
          ((handle_page_fault sampleStore initial 5).1 * 256 + 7)
        = sampleStore (5 * 256 + 7) :=
  page_load_round_trip sampleStore initial Reachable.init 5 (by decide) (by decide)
    (by simp [initial, init_structures, fillLoop_apply]) 7 (by decide) (by decide)

/-! ## Frame / page-table consistency (C5) -/

theorem onFreeStack_iff {bs : BackingStore} {s : VM} (h : Inv bs s) (f : Int)
    (hf0 : 0 ≤ f) (hf1 : f < 128) :
    onFreeStack s f ↔ 128 - s.free_frame_count ≤ f := by
  have hc := h.count_hi
  constructor
  · rintro ⟨i, hi0, hi1, hi⟩
    rw [h.stack i hi0 (by omega)] at hi
    omega
  · intro hk
    refine ⟨127 - f, by omega, by omega, ?_⟩
    rw [h.stack _ (by omega) (by omega)]
    omega

/-- C5: in every reachable state each frame `f` in `[0, 128)` is in exactly one
of two states.  Either it is still on the free stack and no page-table entry
maps to it, or it is off the stack, `loaded_pages[f]` is a page whose
page-table entry is `f`, and that page is the only one mapped to `f`.  Hence a
frame is occupied exactly when it is the target of a mapped page-table entry,
every mapped entry targets a frame in `[0, 128)`, and no two pages map to the
same frame. -/
theorem frame_page_table_consistency (bs : BackingStore) (s : VM) (hs : Reachable bs s) :
    (∀ f, 0 ≤ f → f < 128 →
      ((onFreeStack s f ∧ ∀ p, 0 ≤ p → p < 256 → s.page_table p ≠ f) ∨
       (¬ onFreeStack s f ∧ (0 ≤ s.loaded_pages f ∧ s.loaded_pages f < 256) ∧
          s.page_table (s.loaded_pages f) = f ∧
          ∀ p, 0 ≤ p → p < 256 → s.page_table p = f → p = s.loaded_pages f))) ∧
    (∀ f, 0 ≤ f → f < 128 →
      (¬ onFreeStack s f ↔ ∃ p, (0 ≤ p ∧ p < 256) ∧ s.page_table p = f)) ∧
    (∀ p, 0 ≤ p → p < 256 → s.page_table p ≠ -1 →
      0 ≤ s.page_table p ∧ s.page_table p < 128) ∧
    (∀ p q, 0 ≤ p → p < 256 → 0 ≤ q → q < 256 → s.page_table p ≠ -1 →
      s.page_table p = s.page_table q → p = q) := by
  have h := inv_of_reachable hs
  have hc0 := h.count_lo
  have hc1 := h.count_hi
  have key : ∀ f, 0 ≤ f → f < 128 → ∀ p, 0 ≤ p → p < 256 → s.page_table p = f →
      f < 128 - s.free_frame_count ∧ s.loaded_pages f = p := by
    intro f hf0 hf1 p hp0 hp1 hpf
    have := h.mapped p hp0 hp1 (by omega)
    rw [hpf] at this
    exact ⟨this.2.1, this.2.2⟩
  refine ⟨?_, ?_, ?_, ?_⟩
  · intro f hf0 hf1
    rw [onFreeStack_iff h f hf0 hf1]
    by_cases hk : 128 - s.free_frame_count ≤ f
    · left
      refine ⟨hk, ?_⟩
      intro p hp0 hp1 hpf
      have := (key f hf0 hf1 p hp0 hp1 hpf).1
      omega
    · right
      have hu := h.used f hf0 (by omega)
      refine ⟨hk, ⟨hu.1, hu.2.1⟩, hu.2.2, ?_⟩
      intro p hp0 hp1 hpf
      exact (key f hf0 hf1 p hp0 hp1 hpf).2.symm
  · intro f hf0 hf1
    rw [onFreeStack_iff h f hf0 hf1]
    constructor
    · intro hk
      have hu := h.used f hf0 (by omega)
      exact ⟨s.loaded_pages f, ⟨hu.1, hu.2.1⟩, hu.2.2⟩
    · rintro ⟨p, ⟨hp0, hp1⟩, hpf⟩
      have := (key f hf0 hf1 p hp0 hp1 hpf).1
      omega
  · intro p hp0 hp1 hm
    have := h.mapped p hp0 hp1 hm
    exact ⟨this.1, by omega⟩
  · intro p q hp0 hp1 hq0 hq1 hm he
    have h1 := h.mapped p hp0 hp1 hm
    have h2 := h.mapped q hq0 hq1 (by rw [← he]; exact hm)
    rw [← h1.2.2, ← h2.2.2, he]

theorem frame_page_table_consistency_witness :
    (∀ f, 0 ≤ f → f < 128 →
      ((onFreeStack (translate sampleStore initial 513).2 f ∧ ∀ p, 0 ≤ p → p < 256 → (translate sampleStore initial 513).2.page_table p ≠ f) ∨
       (¬ onFreeStack (translate sampleStore initial 513).2 f ∧
          (0 ≤ (translate sampleStore initial 513).2.loaded_pages f ∧ (translate sampleStore initial 513).2.loaded_pages f < 256) ∧
          (translate sampleStore initial 513).2.page_table ((translate sampleStore initial 513).2.loaded_pages f) = f ∧
          ∀ p, 0 ≤ p → p < 256 → (translate sampleStore initial 513).2.page_table p = f → p = (translate sampleStore initial 513).2.loaded_pages f))) ∧
    (∀ f, 0 ≤ f → f < 128 →
      (¬ onFreeStack (translate sampleStore initial 513).2 f ↔ ∃ p, (0 ≤ p ∧ p < 256) ∧ (translate sampleStore initial 513).2.page_table p = f)) ∧
    (∀ p, 0 ≤ p → p < 256 → (translate sampleStore initial 513).2.page_table p ≠ -1 →
      0 ≤ (translate sampleStore initial 513).2.page_table p ∧ (translate sampleStore initial 513).2.page_table p < 128) ∧
    (∀ p q, 0 ≤ p → p < 256 → 0 ≤ q → q < 256 → (translate sampleStore initial 513).2.page_table p ≠ -1 →
      (translate sampleStore initial 513).2.page_table p = (translate sampleStore initial 513).2.page_table q → p = q) :=
  frame_page_table_consistency sampleStore (translate sampleStore initial 513).2
    (Reachable.step initial 513 Reachable.init)

/-! ## Idempotence of translation (C4) -/

theorem tlb_find_unique {s : VM} {p i : Int} (hi : 0 ≤ i ∧ i < 16) (hp : (s.tlb i).1 = p)
    (hu : ∀ j, 0 ≤ j → j < 16 → j ≠ i → (s.tlb j).1 ≠ p) : tlb_find s p = some i := by
  cases h : tlb_find s p with
  | none => exact absurd hp (tlb_find_none h i hi.1 hi.2)
  | some j =>
    have hj := tlb_find_some h
    by_cases hji : j = i
    · rw [hji]
    · exact absurd hj.2 (hu j hj.1.1 hj.1.2 hji)

theorem tlb_find_update_tlb {s : VM} {p : Int} (f : Int)
    (hmiss : ∀ i, 0 ≤ i → i < 16 → (s.tlb i).1 ≠ p) :
    tlb_find (update_tlb s p f) p = some (update_tlb_index s) ∧
      ((update_tlb s p f).tlb (update_tlb_index s)).2 = f := by
  have hidx := update_tlb_index_range s
  constructor
  · apply tlb_find_unique hidx
    · simp [update_tlb, store_apply]
    · intro j hj0 hj1 hne
      simp only [update_tlb, store_apply, hne, if_false]
      exact hmiss j hj0 hj1
  · simp [update_tlb, store_apply]

theorem handle_page_fault_keeps_miss (bs : BackingStore) (s : VM) (p : Int) (hp : p ≠ -1)
    (hmiss : ∀ i, 0 ≤ i → i < 16 → (s.tlb i).1 ≠ p) :
    ∀ i, 0 ≤ i → i < 16 → ((handle_page_fault bs s p).2.tlb i).1 ≠ p := by
  intro i hi0 hi1
  by_cases h0 : 0 < s.free_frame_count
  · rw [handle_page_fault_free bs s p h0]; exact hmiss i hi0 hi1
  · rw [handle_page_fault_evict bs s p h0]
    simp only [tlb_invalidate_apply]
    split
    · exact fun hx => hp hx.symm
    · exact hmiss i hi0 hi1

theorem resolve_cached (bs : BackingStore) (s : VM) (p : Int) (hp : p ≠ -1) :
    ∃ i, tlb_find (resolve bs s p).2 p = some i ∧
      ((resolve bs s p).2.tlb i).2 = (resolve bs s p).1 := by
  cases hf : tlb_find s p with
  | some i =>
    rw [resolve_hit bs hf]
    exact ⟨i, hf, rfl⟩
  | none =>
    by_cases hpt : s.page_table p = -1
    · rw [resolve_fault bs hf hpt]
      exact ⟨_, tlb_find_update_tlb _
        (handle_page_fault_keeps_miss bs s p hp (tlb_find_none hf))⟩
    · rw [resolve_mapped bs hf hpt]
      exact ⟨_, tlb_find_update_tlb _ (tlb_find_none hf)⟩

theorem translate_hit (bs : BackingStore) {s : VM} {a i : Int}
    (h : tlb_find s (pageNumber a) = some i) :
    translate bs s a =
      (⟨a, (s.tlb i).2 * PAGE_SIZE + pageOffset a,
        toSigned (s.physical_memory ((s.tlb i).2 * PAGE_SIZE + pageOffset a))⟩,
       { s with
         tlb_usage := store s.tlb_usage i (s.tlb_counter + 1)
         tlb_counter := s.tlb_counter + 1
         tlb_hits := s.tlb_hits + 1 }) := by
  simp [translate, resolve_hit bs h]

theorem pageNumber_ne_neg_one (a : Int) : pageNumber a ≠ -1 := by
  have := pageNumber_range a
  omega

theorem translate_cached (bs : BackingStore) (s : VM) (a : Int) :
    ∃ i, tlb_find (translate bs s a).2 (pageNumber a) = some i ∧
      (translate bs s a).1 =
        ⟨a, ((translate bs s a).2.tlb i).2 * PAGE_SIZE + pageOffset a,
          toSigned ((translate bs s a).2.physical_memory
            (((translate bs s a).2.tlb i).2 * PAGE_SIZE + pageOffset a))⟩ := by
  obtain ⟨i, h1, h2⟩ := resolve_cached bs s (pageNumber a) (pageNumber_ne_neg_one a)
  refine ⟨i, h1, ?_⟩
  simp only [translate]
  rw [h2]

theorem translate_twice (bs : BackingStore) (s : VM) (a : Int) :
    (translate bs (translate bs s a).2 a).1 = (translate bs s a).1 ∧
      (tlb_lookup (translate bs s a).2 (pageNumber a)).1 ≠ none ∧
      (translate bs (translate bs s a).2 a).2.tlb_hits = (translate bs s a).2.tlb_hits + 1 ∧
      (translate bs (translate bs s a).2 a).2.page_faults = (translate bs s a).2.page_faults := by
  obtain ⟨i, h1, h2⟩ := translate_cached bs s a
  rw [translate_hit bs h1]
  refine ⟨h2.symm, ?_, rfl, rfl⟩
  simp [tlb_lookup, h1]

/-- C4: for every reachable state and every logical address `a`, two calls of
`translate(a)` in immediate succession print the same line (same physical
address, same value), and the second call is a TLB hit: its `tlb_lookup`
succeeds, `tlb_hits` grows by exactly 1 and `page_faults` does not change. -/
theorem translate_idempotent (bs : BackingStore) (s : VM) (_hs : Reachable bs s) (a : Int) :
    (translate bs (translate bs s a).2 a).1.physical_address
        = (translate bs s a).1.physical_address ∧
      (translate bs (translate bs s a).2 a).1.value = (translate bs s a).1.value ∧
      (tlb_lookup (translate bs s a).2 (pageNumber a)).1 ≠ none ∧
      (translate bs (translate bs s a).2 a).2.tlb_hits = (translate bs s a).2.tlb_hits + 1 ∧
      (translate bs (translate bs s a).2 a).2.page_faults
        = (translate bs s a).2.page_faults := by
  have h := translate_twice bs s a
  exact ⟨by rw [h.1], by rw [h.1], h.2.1, h.2.2.1, h.2.2.2⟩

theorem translate_idempotent_witness :
    (translate sampleStore (translate sampleStore initial 513).2 513).1.physical_address
        = (translate sampleStore initial 513).1.physical_address ∧
      (translate sampleStore (translate sampleStore initial 513).2 513).1.value
        = (translate sampleStore initial 513).1.value ∧
      (tlb_lookup (translate sampleStore initial 513).2 (pageNumber 513)).1 ≠ none ∧
      (translate sampleStore (translate sampleStore initial 513).2 513).2.tlb_hits
        = (translate sampleStore initial 513).2.tlb_hits + 1 ∧
      (translate sampleStore (translate sampleStore initial 513).2 513).2.page_faults
        = (translate sampleStore initial 513).2.page_faults :=
  translate_idempotent sampleStore initial Reachable.init 513

/-! ## The cold system (C9) and a repeated address (C8) -/

theorem initial_tlb (i : Int) (h0 : 0 ≤ i) (h1 : i < 16) : initial.tlb i = (-1, -1) := by
  simp [initial, init_structures, fillLoop_apply, h0, h1]

theorem initial_page_table (p : Int) (h0 : 0 ≤ p) (h1 : p < 256) :
    initial.page_table p = -1 := by
  simp [initial, init_structures, fillLoop_apply, h0, h1]

theorem initial_tlb_find (p : Int) (hp : p ≠ -1) : tlb_find initial p = none := by
  cases h : tlb_find initial p with
  | none => rfl
  | some i =>
    have hi := tlb_find_some h
    rw [initial_tlb i hi.1.1 hi.1.2] at hi
    exact absurd hi.2.symm hp

theorem initial_fault (bs : BackingStore) (p : Int) :
    handle_page_fault bs initial p =
      (0,
       { initial with
         page_faults := 1
         free_frame_count := 127
         loaded_pages := store initial.loaded_pages 0 p
         page_table := store initial.page_table p 0
         fifo_queue := store initial.fifo_queue 0 0
         fifo_tail := 1
         physical_memory := load_page bs initial.physical_memory p 0 }) := by
  have hc : initial.free_frame_count = 128 := rfl
  have hff : initial.free_frames 127 = 0 := by
    simp [initial, init_structures, fillLoop_apply]
  rw [handle_page_fault_free bs initial p (by rw [hc]; decide), hc]
  norm_num
  rw [hff]
  exact ⟨rfl, rfl, rfl, rfl, rfl, rfl, rfl⟩

/-- C9: on the state produced by `init_structures`, the first `translate(a)` of
any `a` in `[0, 65535]` takes the page-fault path (`page_faults` becomes 1,
`tlb_hits` stays 0), uses frame 0, prints physical address `a & 0xFF` and
prints as value byte `a` of the backing store read as a signed 8-bit integer. -/
theorem cold_first_translation (bs : BackingStore) (a : Int) (h0 : 0 ≤ a) (h1 : a ≤ 65535) :
    takesFault initial a = true ∧
      (translate bs initial a).2.page_faults = 1 ∧
      (translate bs initial a).2.tlb_hits = 0 ∧
      (resolve bs initial (pageNumber a)).1 = 0 ∧
      (translate bs initial a).2.page_table (pageNumber a) = 0 ∧
      (translate bs initial a).1.physical_address = pageOffset a ∧
      (translate bs initial a).1.value = toSigned (bs a) := by
  have hd := pageNumber_pageOffset a h0 h1
  have hpr := pageNumber_range a
  have hor := pageOffset_range a
  have hf := initial_tlb_find (pageNumber a) (pageNumber_ne_neg_one a)
  have hpt := initial_page_table (pageNumber a) hpr.1 hpr.2
  have hr := resolve_fault bs hf hpt
  rw [initial_fault] at hr
  refine ⟨by simp [takesFault, hf, page_table_lookup, hpt], ?_, ?_, ?_, ?_, ?_, ?_⟩
  · simp only [translate, hr, update_tlb]
  · simp only [translate, hr, update_tlb]; rfl
  · rw [hr]
  · simp only [translate, hr, update_tlb, store_apply, if_true]
  · simp only [translate, hr, PAGE_SIZE]; omega
  · simp only [translate, hr, update_tlb, load_page, PAGE_SIZE]
    have hin : (0 : Int) * 256 ≤ 0 * 256 + pageOffset a ∧
        0 * 256 + pageOffset a < 0 * 256 + 256 := by omega
    rw [if_pos hin]
    congr 2
    omega

theorem cold_first_translation_witness :
    takesFault initial 0 = true ∧
      (translate sampleStore initial 0).2.page_faults = 1 ∧
      (translate sampleStore initial 0).2.tlb_hits = 0 ∧
      (resolve sampleStore initial (pageNumber 0)).1 = 0 ∧
      (translate sampleStore initial 0).2.page_table (pageNumber 0) = 0 ∧
      (translate sampleStore initial 0).1.physical_address = pageOffset 0 ∧
      (translate sampleStore initial 0).1.value = toSigned (sampleStore 0) :=
  cold_first_translation sampleStore 0 (by decide) (by decide)

theorem tlb_find_congr {s t : VM} (h : t.tlb = s.tlb) (p : Int) :
    tlb_find t p = tlb_find s p := by
  unfold tlb_find
  rw [h]

theorem runFrom_cons (bs : BackingStore) (s : VM) (a : Int) (l : List Int) :
    runFrom bs s (a :: l) = runFrom bs (translate bs s a).2 l := rfl

theorem runFrom_append (bs : BackingStore) (s : VM) (l : List Int) (a : Int) :
    runFrom bs s (l ++ [a]) = (translate bs (runFrom bs s l) a).2 := by
  simp [runFrom, List.foldl_append]

theorem outputs_length (bs : BackingStore) (s : VM) (l : List Int) :
    (outputs bs s l).length = l.length := by
  induction l generalizing s with
  | nil => rfl
  | cons a l ih => simp [outputs, ih]

theorem repeat_hits (bs : BackingStore) (a i : Int) (m : Nat) :
    ∀ s : VM, tlb_find s (pageNumber a) = some i →
      (runFrom bs s (List.replicate m a)).tlb_hits = s.tlb_hits + m ∧
      (runFrom bs s (List.replicate m a)).page_faults = s.page_faults ∧
      ∀ o ∈ outputs bs s (List.replicate m a),
        o = ⟨a, (s.tlb i).2 * PAGE_SIZE + pageOffset a,
          toSigned (s.physical_memory ((s.tlb i).2 * PAGE_SIZE + pageOffset a))⟩ := by
  induction m with
  | zero =>
    intro s _
    simp [runFrom, outputs]
  | succ m ih =>
    intro s h
    have ht := translate_hit bs h
    have h2 : tlb_find (translate bs s a).2 (pageNumber a) = some i := by
      rw [ht]; exact h
    have := ih (translate bs s a).2 h2
    rw [List.replicate_succ, runFrom_cons]
    refine ⟨?_, ?_, ?_⟩
    · rw [this.1, ht]; push_cast; ring
    · rw [this.2.1, ht]
    · intro o ho
      simp only [outputs, List.mem_cons] at ho
      rcases ho with ho | ho
      · rw [ho, ht]
      · rw [this.2.2 o ho, ht]

/-- C8: starting from `init_structures`, for every logical address `a` and every
`n ≥ 1`, translating `a` exactly `n` times in a row leaves `page_faults = 1` and
`tlb_hits = n - 1`, and each of the `n` printed lines equals the first one
(same physical address and value). -/
theorem repeated_address (bs : BackingStore) (a : Int) (n : Nat) (hn : 1 ≤ n) :
    (run bs (List.replicate n a)).page_faults = 1 ∧
      (run bs (List.replicate n a)).tlb_hits = (n : Int) - 1 ∧
      (outputs bs initial (List.replicate n a)).length = n ∧
      ∀ o ∈ outputs bs initial (List.replicate n a), o = (translate bs initial a).1 := by
  obtain ⟨m, rfl⟩ : ∃ m, n = m + 1 := ⟨n - 1, by omega⟩
  obtain ⟨i, h1, h2⟩ := translate_cached bs initial a
  have hrep := repeat_hits bs a i m (translate bs initial a).2 h1
  have hf := initial_tlb_find (pageNumber a) (pageNumber_ne_neg_one a)
  have hr := pageNumber_range a
  have hpt := initial_page_table (pageNumber a) hr.1 hr.2
  have hres := resolve_fault bs hf hpt
  rw [initial_fault] at hres
  have hpf : (translate bs initial a).2.page_faults = 1 := by
    simp only [translate, hres, update_tlb]
  have hth : (translate bs initial a).2.tlb_hits = 0 := by
    simp only [translate, hres, update_tlb]; rfl
  refine ⟨?_, ?_, ?_, ?_⟩
  · show (runFrom bs initial (List.replicate (m + 1) a)).page_faults = 1
    rw [List.replicate_succ, runFrom_cons, hrep.2.1, hpf]
  · show (runFrom bs initial (List.replicate (m + 1) a)).tlb_hits = _
    rw [List.replicate_succ, runFrom_cons, hrep.1, hth]
    push_cast; ring
  · rw [outputs_length, List.length_replicate]
  · intro o ho
    rw [List.replicate_succ] at ho
    simp only [outputs, List.mem_cons] at ho
    rcases ho with ho | ho
    · exact ho
    · rw [hrep.2.2 o ho]
      exact h2.symm

theorem repeated_address_witness :
    (run sampleStore (List.replicate 20 513)).page_faults = 1 ∧
      (run sampleStore (List.replicate 20 513)).tlb_hits = ((20 : Nat) : Int) - 1 ∧
      (outputs sampleStore initial (List.replicate 20 513)).length = 20 ∧
      ∀ o ∈ outputs sampleStore initial (List.replicate 20 513),
        o = (translate sampleStore initial 513).1 :=
  repeated_address sampleStore 513 20 (by decide)

/-! ## Cold fill (C6) and the first eviction (C7) -/

theorem run_append (bs : BackingStore) (l : List Int) (a : Int) :
    run bs (l ++ [a]) = (translate bs (run bs l) a).2 :=
  runFrom_append bs initial l a

theorem reachable_run (bs : BackingStore) (l : List Int) : Reachable bs (run bs l) := by
  induction l using List.reverseRecOn with
  | nil => exact Reachable.init
  | append_singleton l a ih =>
    rw [run_append]
    exact Reachable.step _ a ih

theorem distinctPages_append (l : List Int) (a : Int) :
    distinctPages (l ++ [a]) =
      if pageNumber a ∈ distinctPages l then distinctPages l
      else distinctPages l ++ [pageNumber a] := by
  simp [distinctPages, List.foldl_append]

theorem evictions_append (bs : BackingStore) (s : VM) (l : List Int) (a : Int) :
    evictions bs s (l ++ [a]) =
      evictions bs s l + (if takesEviction (runFrom bs s l) a then 1 else 0) := by
  induction l generalizing s with
  | nil => simp [evictions, runFrom]
  | cons b l ih =>
    show (if takesEviction s b then 1 else 0) + evictions bs (translate bs s b).2 (l ++ [a]) = _
    rw [ih, runFrom_cons]
    simp only [evictions]
    omega

theorem takesFault_eq_true {s : VM} {a : Int} :
    takesFault s a = true ↔
      tlb_find s (pageNumber a) = none ∧ s.page_table (pageNumber a) = -1 := by
  simp [takesFault, page_table_lookup]

/-- A call of `translate` that is not a page fault leaves the page table, the
frame bookkeeping, physical memory and the fault counter alone. -/
theorem translate_no_fault (bs : BackingStore) {s : VM} {a : Int}
    (h : takesFault s a = false) :
    (translate bs s a).2.page_table = s.page_table ∧
      (translate bs s a).2.loaded_pages = s.loaded_pages ∧
      (translate bs s a).2.free_frames = s.free_frames ∧
      (translate bs s a).2.free_frame_count = s.free_frame_count ∧
      (translate bs s a).2.fifo_queue = s.fifo_queue ∧
      (translate bs s a).2.fifo_head = s.fifo_head ∧
      (translate bs s a).2.fifo_tail = s.fifo_tail ∧
      (translate bs s a).2.physical_memory = s.physical_memory ∧
      (translate bs s a).2.page_faults = s.page_faults := by
  cases hf : tlb_find s (pageNumber a) with
  | some i =>
    rw [translate_hit bs hf]
    exact ⟨rfl, rfl, rfl, rfl, rfl, rfl, rfl, rfl, rfl⟩
  | none =>
    have hpt : s.page_table (pageNumber a) ≠ -1 := by
      intro hx
      have := takesFault_eq_true.2 ⟨hf, hx⟩
      rw [h] at this
      exact Bool.false_ne_true this
    simp only [translate, resolve_mapped bs hf hpt, update_tlb, and_self]

/-- The state after a call of `translate` that is a page fault: the state
`handle_page_fault` returns, with the new mapping entered in the TLB. -/
theorem translate_fault (bs : BackingStore) {s : VM} {a : Int} (h : takesFault s a = true) :
    (translate bs s a).2 =
      update_tlb (handle_page_fault bs s (pageNumber a)).2 (pageNumber a)
        (handle_page_fault bs s (pageNumber a)).1 := by
  have h2 := takesFault_eq_true.1 h
  simp only [translate, resolve_fault bs h2.1 h2.2]

theorem unmapped_takesFault {bs : BackingStore} {s : VM} (h : Inv bs s) (a : Int)
    (hpt : s.page_table (pageNumber a) = -1) : takesFault s a = true := by
  rw [takesFault_eq_true]
  refine ⟨?_, hpt⟩
  cases hf : tlb_find s (pageNumber a) with
  | none => rfl
  | some i =>
    have hi := tlb_find_some hf
    have := h.tlb_ok i hi.1.1 hi.1.2 (by rw [hi.2]; exact pageNumber_ne_neg_one a)
    rw [hi.2, hpt] at this
    exact absurd this.2.2.1.symm this.2.2.2

theorem mapped_not_takesFault {s : VM} {a : Int} (hpt : s.page_table (pageNumber a) ≠ -1) :
    takesFault s a = false := by
  cases h : takesFault s a with
  | false => rfl
  | true => exact absurd (takesFault_eq_true.1 h).2 hpt

theorem translate_fault_free {bs : BackingStore} {s : VM} (h : Inv bs s) {a : Int}
    (hf : takesFault s a = true) (h0 : 0 < s.free_frame_count) :
    (translate bs s a).2.page_table
        = store s.page_table (pageNumber a) (128 - s.free_frame_count) ∧
      (translate bs s a).2.page_faults = s.page_faults + 1 ∧
      (translate bs s a).2.free_frame_count = s.free_frame_count - 1 ∧
      (translate bs s a).2.fifo_head = s.fifo_head := by
  have hc2 := h.count_hi
  have hfr : s.free_frames (s.free_frame_count - 1) = 128 - s.free_frame_count := by
    rw [h.stack _ (by omega) (by omega)]; omega
  rw [translate_fault bs hf, handle_page_fault_free bs s _ h0, hfr]
  exact ⟨rfl, rfl, rfl, rfl⟩

theorem cold_run (bs : BackingStore) (addrs : List Int)
    (hlen : (distinctPages addrs).length ≤ 128) :
    (run bs addrs).page_faults = (distinctPages addrs).length ∧
      (run bs addrs).free_frame_count = 128 - (distinctPages addrs).length ∧
      (run bs addrs).fifo_head = 0 ∧
      evictions bs initial addrs = 0 ∧
      (∀ (k : Nat) (p : Int), (distinctPages addrs)[k]? = some p →
        (run bs addrs).page_table p = k) ∧
      (∀ p, 0 ≤ p → p < 256 → p ∉ distinctPages addrs → (run bs addrs).page_table p = -1) := by
  induction addrs using List.reverseRecOn with
  | nil =>
    refine ⟨rfl, rfl, rfl, rfl, ?_, ?_⟩
    · intro k p hk
      simp [distinctPages] at hk
    · intro p hp0 hp1 _
      exact initial_page_table p hp0 hp1
  | append_singleton l a ih =>
    have hinv := inv_of_reachable (reachable_run bs l)
    have hr := pageNumber_range a
    rw [distinctPages_append] at hlen ⊢
    rw [run_append, evictions_append]
    by_cases hmem : pageNumber a ∈ distinctPages l
    · rw [if_pos hmem] at hlen ⊢
      obtain ⟨ih1, ih2, ih3, ih4, ih5, ih6⟩ := ih hlen
      obtain ⟨k, hk⟩ := List.mem_iff_getElem?.1 hmem
      have hpt : (run bs l).page_table (pageNumber a) ≠ -1 := by
        rw [ih5 k _ hk]; omega
      have hnf := mapped_not_takesFault hpt
      have hsame := translate_no_fault bs hnf
      have hne : takesEviction (runFrom bs initial l) a = false := by
        show takesEviction (run bs l) a = false
        simp [takesEviction, hnf]
      rw [hsame.1, hsame.2.2.2.1, hsame.2.2.2.2.2.1, hsame.2.2.2.2.2.2.2.2, hne, ih4]
      exact ⟨ih1, ih2, ih3, by simp, ih5, ih6⟩
    · rw [if_neg hmem] at hlen ⊢
      rw [List.length_append] at hlen ⊢
      simp only [List.length_singleton] at hlen ⊢
      obtain ⟨ih1, ih2, ih3, ih4, ih5, ih6⟩ := ih (by omega)
      have hpt : (run bs l).page_table (pageNumber a) = -1 := ih6 _ hr.1 hr.2 hmem
      have hf := unmapped_takesFault hinv a hpt
      have h0 : 0 < (run bs l).free_frame_count := by rw [ih2]; omega
      have hnew := translate_fault_free hinv hf h0
      have hne : takesEviction (runFrom bs initial l) a = false := by
        show takesEviction (run bs l) a = false
        simp [takesEviction, h0]
      rw [hnew.1, hnew.2.1, hnew.2.2.1, hnew.2.2.2, hne, ih4, ih1, ih2, ih3]
      refine ⟨by push_cast; ring, by push_cast; ring, rfl, by simp, ?_, ?_⟩
      · intro k p hk
        rw [List.getElem?_append] at hk
        simp only [store_apply]
        split at hk
        · have hp : p ∈ distinctPages l := List.mem_iff_getElem?.2 ⟨k, hk⟩
          have hne2 : p ≠ pageNumber a := fun hx => hmem (hx ▸ hp)
          rw [if_neg hne2]
          exact ih5 k p hk
        · rw [List.getElem?_eq_some] at hk
          obtain ⟨hk1, hk2⟩ := hk
          simp at hk1 hk2
          rw [if_pos hk2.symm]
          omega
      · intro p hp0 hp1 hp
        have hp2 : p ∉ distinctPages l := fun hx => hp (List.mem_append_left _ hx)
        have hne2 : p ≠ pageNumber a := fun hx => hp (by simp [hx])
        simp only [store_apply, if_neg hne2]
        exact ih6 p hp0 hp1 hp2

/-- C6: starting from `init_structures`, for every address sequence that touches
at most 128 distinct page numbers, after the whole sequence `page_faults`
equals the number of distinct pages, no call took the eviction branch, and the
distinct page at position `k` (counting from 0) in order of first appearance is
mapped to frame `k`: frames are handed out in the order 0, 1, 2, ... -/
theorem cold_fill (bs : BackingStore) (addrs : List Int)
    (hlen : (distinctPages addrs).length ≤ 128) :
    (run bs addrs).page_faults = (distinctPages addrs).length ∧
      evictions bs initial addrs = 0 ∧
      ∀ (k : Nat) (p : Int), (distinctPages addrs)[k]? = some p →
        (run bs addrs).page_table p = k := by
  have h := cold_run bs addrs hlen
  exact ⟨h.1, h.2.2.2.1, h.2.2.2.2.1⟩

set_option maxRecDepth 100000 in
theorem coldAddrs_length : (distinctPages coldAddrs).length = 128 := by decide

set_option maxRecDepth 100000 in
theorem coldAddrs_first : (distinctPages coldAddrs)[0]? = some 0 := by decide

set_option maxRecDepth 100000 in
theorem coldAddrs_fresh : (200 : Int) ∉ distinctPages coldAddrs := by decide

theorem coldAddrs_full (bs : BackingStore) : (run bs coldAddrs).free_frame_count = 0 := by
  rw [(cold_run bs coldAddrs (by rw [coldAddrs_length])).2.1, coldAddrs_length]
  rfl

theorem cold_fill_witness :
    (distinctPages coldAddrs).length = 128 ∧
      (run sampleStore coldAddrs).page_faults = 128 ∧
      evictions sampleStore initial coldAddrs = 0 ∧
      ∀ (k : Nat) (p : Int), (distinctPages coldAddrs)[k]? = some p →
        (run sampleStore coldAddrs).page_table p = k := by
  have h := cold_fill sampleStore coldAddrs (by rw [coldAddrs_length])
  rw [coldAddrs_length] at h
  exact ⟨coldAddrs_length, h⟩

theorem mem_distinctPages (l : List Int) (p : Int) :
    p ∈ distinctPages l ↔ p ∈ l.map pageNumber := by
  induction l using List.reverseRecOn with
  | nil => simp [distinctPages]
  | append_singleton l a ih =>
    rw [distinctPages_append]
    by_cases hmem : pageNumber a ∈ distinctPages l
    · rw [if_pos hmem, List.map_append, List.mem_append, ← ih]
      constructor
      · exact Or.inl
      · rintro (h | h)
        · exact h
        · rw [List.map_singleton, List.mem_singleton] at h
          rw [h]; exact hmem
    · rw [if_neg hmem, List.map_append, List.mem_append, List.mem_append, ih]
      simp

theorem distinctPages_nodup (l : List Int) : (distinctPages l).Nodup := by
  induction l using List.reverseRecOn with
  | nil => simp [distinctPages]
  | append_singleton l a ih =>
    rw [distinctPages_append]
    by_cases hmem : pageNumber a ∈ distinctPages l
    · rw [if_pos hmem]; exact ih
    · rw [if_neg hmem]
      exact List.Nodup.append ih (List.nodup_singleton _)
        (by intro x hx hy; rw [List.mem_singleton.1 hy] at hx; exact hmem hx)

/-- The fault counter moves exactly on the calls that `takesFault` singles out. -/
theorem translate_page_faults (bs : BackingStore) (s : VM) (a : Int) :
    (translate bs s a).2.page_faults
      = s.page_faults + (if takesFault s a = true then 1 else 0) := by
  cases hf : takesFault s a with
  | false => simp [(translate_no_fault bs hf).2.2.2.2.2.2.2.2]
  | true =>
    rw [translate_fault bs hf, if_pos rfl]
    by_cases h0 : 0 < s.free_frame_count
    · rw [handle_page_fault_free bs s _ h0]; rfl
    · rw [handle_page_fault_evict bs s _ h0]; rfl

theorem mem_distinctPages_range (l : List Int) :
    ∀ p ∈ distinctPages l, 0 ≤ p ∧ p < 256 := by
  induction l using List.reverseRecOn with
  | nil => intro p hp; simp [distinctPages] at hp
  | append_singleton l a ih =>
    intro p hp
    rw [distinctPages_append] at hp
    split at hp
    · exact ih p hp
    · rcases List.mem_append.1 hp with hp | hp
      · exact ih p hp
      · rw [List.mem_singleton.1 hp]; exact pageNumber_range a

/-- C7: starting from `init_structures`, after translating addresses whose
distinct pages in first-appearance order are exactly `p1, ..., p128`,
translating an address of a further page `q` takes the eviction branch and
evicts `p1`: afterwards `page_table[p1]` is unmapped, no TLB slot holds `p1`,
`q` is mapped to frame 0, and the distinct page at position `k ≥ 1` (counting
from 0) is still mapped to frame `k`. -/
theorem first_eviction (bs : BackingStore) (addrs : List Int) (a p1 : Int)
    (hlen : (distinctPages addrs).length = 128)
    (h1 : (distinctPages addrs)[0]? = some p1)
    (hq : pageNumber a ∉ distinctPages addrs) :
    takesEviction (run bs addrs) a = true ∧
      (translate bs (run bs addrs) a).2.page_table p1 = -1 ∧
      (∀ i, 0 ≤ i → i < 16 → ((translate bs (run bs addrs) a).2.tlb i).1 ≠ p1) ∧
      (translate bs (run bs addrs) a).2.page_table (pageNumber a) = 0 ∧
      ∀ (k : Nat) (p : Int), 1 ≤ k → (distinctPages addrs)[k]? = some p →
        (translate bs (run bs addrs) a).2.page_table p = k := by
  obtain ⟨_, c2, c3, _, c5, c6⟩ := cold_run bs addrs (by omega)
  have hinv := inv_of_reachable (reachable_run bs addrs)
  have hr := pageNumber_range a
  have hc : (run bs addrs).free_frame_count = 0 := by rw [c2, hlen]; rfl
  have hpt : (run bs addrs).page_table (pageNumber a) = -1 := c6 _ hr.1 hr.2 hq
  have hf := unmapped_takesFault hinv a hpt
  have h0 : ¬ 0 < (run bs addrs).free_frame_count := by omega
  have hp1mem : p1 ∈ distinctPages addrs := List.mem_iff_getElem?.2 ⟨0, h1⟩
  have hp1r := mem_distinctPages_range addrs p1 hp1mem
  have hp1pt : (run bs addrs).page_table p1 = 0 := by
    have := c5 0 p1 h1
    simpa using this
  have hq0 : (run bs addrs).fifo_queue (run bs addrs).fifo_head = 0 := by
    rw [c3]; exact hinv.queue 0 (by omega) (by omega)
  have hlp : (run bs addrs).loaded_pages 0 = p1 := by
    have := (hinv.mapped p1 hp1r.1 hp1r.2 (by omega)).2.2
    rw [hp1pt] at this
    exact this
  have hne1 : p1 ≠ pageNumber a := fun hx => hq (hx ▸ hp1mem)
  rw [translate_fault bs hf, handle_page_fault_evict bs _ _ h0, hq0, hlp]
  refine ⟨by simp [takesEviction, hf, h0], ?_, ?_, ?_, ?_⟩
  · simp [update_tlb, store_apply, hne1]
  · intro i hi0 hi1
    simp only [update_tlb, store_apply, tlb_invalidate_apply]
    split
    · exact fun hx => hne1 hx.symm
    · split
      · show (-1 : Int) ≠ p1
        omega
      · rename_i hx
        intro hy
        exact hx ⟨⟨hi0, hi1⟩, hy⟩
  · simp [update_tlb, store_apply]
  · intro k p hk1 hk
    have hpm : p ∈ distinctPages addrs := List.mem_iff_getElem?.2 ⟨k, hk⟩
    have hne2 : p ≠ pageNumber a := fun hx => hq (hx ▸ hpm)
    have hpk := c5 k p hk
    have hne3 : p ≠ p1 := by
      intro hx
      rw [hx, hp1pt] at hpk
      omega
    simp only [update_tlb, store_apply, if_neg hne2, if_neg hne3]
    exact hpk

theorem first_eviction_witness :
    takesEviction (run sampleStore coldAddrs) 51200 = true ∧
      (translate sampleStore (run sampleStore coldAddrs) 51200).2.page_table 0 = -1 ∧
      (∀ i, 0 ≤ i → i < 16 →
        ((translate sampleStore (run sampleStore coldAddrs) 51200).2.tlb i).1 ≠ 0) ∧
      (translate sampleStore (run sampleStore coldAddrs) 51200).2.page_table
        (pageNumber 51200) = 0 ∧
      ∀ (k : Nat) (p : Int), 1 ≤ k → (distinctPages coldAddrs)[k]? = some p →
        (translate sampleStore (run sampleStore coldAddrs) 51200).2.page_table p = k :=
  first_eviction sampleStore coldAddrs 51200 0 coldAddrs_length coldAddrs_first
    (by
      have h : pageNumber 51200 = 200 := by decide
      rw [h]
      exact coldAddrs_fresh)

/-! ## FIFO eviction (C1) -/

theorem find?_ext {α : Type} (f g : α → Bool) (l : List α) (h : ∀ x ∈ l, f x = g x) :
    l.find? f = l.find? g := by
  induction l with
  | nil => rfl
  | cons x l ih =>
    rw [List.find?_cons, List.find?_cons, h x (List.mem_cons_self _ _),
      ih (fun y hy => h y (List.mem_cons_of_mem _ hy))]

theorem loadsAt_append_lt (bs : BackingStore) (l : List Int) (a p : Int) (i : Nat)
    (hi : i < l.length) : loadsAt bs (l ++ [a]) p i = loadsAt bs l p i := by
  unfold loadsAt
  rw [List.getElem?_append_left hi, List.take_append_of_le_length (Nat.le_of_lt hi)]

theorem loadsAt_append_last (bs : BackingStore) (l : List Int) (a p : Int) :
    loadsAt bs (l ++ [a]) p l.length
      = (takesFault (run bs l) a && decide (pageNumber a = p)) := by
  unfold loadsAt
  rw [List.getElem?_append_right (Nat.le_refl _), List.take_left]
  simp

theorem lastLoad_append (bs : BackingStore) (l : List Int) (a p : Int) :
    lastLoad bs (l ++ [a]) p =
      if (takesFault (run bs l) a && decide (pageNumber a = p)) = true then some l.length
      else lastLoad bs l p := by
  unfold lastLoad
  rw [List.length_append, List.length_singleton, List.range_succ, List.reverse_append,
    List.reverse_singleton, List.singleton_append, List.find?_cons, loadsAt_append_last]
  cases hb : (takesFault (run bs l) a && decide (pageNumber a = p)) with
  | true => simp
  | false =>
    simp only [Bool.false_eq_true, if_false]
    apply find?_ext
    intro i hi
    have : i < l.length := List.mem_range.1 (List.mem_reverse.1 hi)
    exact loadsAt_append_lt bs l a p i this

theorem lastLoad_lt {bs : BackingStore} {l : List Int} {p : Int} {t : Nat}
    (h : lastLoad bs l p = some t) : t < l.length := by
  unfold lastLoad at h
  exact List.mem_range.1 (List.mem_reverse.1 (List.mem_of_find?_eq_some h))

theorem lastLoad_loadsAt {bs : BackingStore} {l : List Int} {p : Int} {t : Nat}
    (h : lastLoad bs l p = some t) : loadsAt bs l p t = true := by
  unfold lastLoad at h
  exact List.find?_some h

theorem translate_fault_free_frames {bs : BackingStore} {s : VM} (h : Inv bs s) {a : Int}
    (hf : takesFault s a = true) (h0 : 0 < s.free_frame_count) :
    (translate bs s a).2.loaded_pages
        = store s.loaded_pages (128 - s.free_frame_count) (pageNumber a) ∧
      (translate bs s a).2.free_frame_count = s.free_frame_count - 1 ∧
      (translate bs s a).2.fifo_head = s.fifo_head := by
  have hc2 := h.count_hi
  have hfr : s.free_frames (s.free_frame_count - 1) = 128 - s.free_frame_count := by
    rw [h.stack _ (by omega) (by omega)]; omega
  rw [translate_fault bs hf, handle_page_fault_free bs s _ h0, hfr]
  exact ⟨rfl, rfl, rfl⟩

theorem translate_fault_evict_frames {bs : BackingStore} {s : VM} (h : Inv bs s) {a : Int}
    (hf : takesFault s a = true) (h0 : ¬ 0 < s.free_frame_count) :
    (translate bs s a).2.loaded_pages = store s.loaded_pages s.fifo_head (pageNumber a) ∧
      (translate bs s a).2.free_frame_count = s.free_frame_count ∧
      (translate bs s a).2.fifo_head = (s.fifo_head + 1) % 128 := by
  have hc : s.free_frame_count = 0 := by have := h.count_lo; omega
  have hh0 := h.head_lo
  have hh1 := h.head_hi
  have hq : s.fifo_queue s.fifo_head = s.fifo_head := h.queue _ hh0 (by omega)
  rw [translate_fault bs hf, handle_page_fault_evict bs s _ h0, hq, tmod_succ_128 _ hh0]
  exact ⟨rfl, rfl, rfl⟩

/-- Along every run, each frame in use holds a page with a recorded load, and
the frames in ring order from `fifo_head` hold pages in increasing order of
their most recent load. -/
theorem fifo_order (bs : BackingStore) (addrs : List Int) :
    (∀ f, 0 ≤ f → f < 128 - (run bs addrs).free_frame_count →
      ∃ t, lastLoad bs addrs ((run bs addrs).loaded_pages f) = some t) ∧
    (∀ f g tf tg, 0 ≤ f → f < 128 - (run bs addrs).free_frame_count →
      0 ≤ g → g < 128 - (run bs addrs).free_frame_count →
      (f - (run bs addrs).fifo_head) % 128 < (g - (run bs addrs).fifo_head) % 128 →
      lastLoad bs addrs ((run bs addrs).loaded_pages f) = some tf →
      lastLoad bs addrs ((run bs addrs).loaded_pages g) = some tg → tf < tg) := by
  induction addrs using List.reverseRecOn with
  | nil =>
    have hc : (run bs []).free_frame_count = 128 := rfl
    constructor
    · intro f hf0 hf1; omega
    · intro f g tf tg hf0 hf1; omega
  | append_singleton l a ih =>
    obtain ⟨ihE, ihO⟩ := ih
    have hinv := inv_of_reachable (reachable_run bs l)
    have hc0 := hinv.count_lo
    have hc1 := hinv.count_hi
    have hh0 := hinv.head_lo
    have hh1 := hinv.head_hi
    rw [run_append]
    cases hf : takesFault (run bs l) a with
    | false =>
      have hsame := translate_no_fault bs hf
      have hll : ∀ p, lastLoad bs (l ++ [a]) p = lastLoad bs l p := by
        intro p; rw [lastLoad_append, hf]; simp
      rw [hsame.2.1, hsame.2.2.2.1, hsame.2.2.2.2.2.1]
      simp only [hll]
      exact ⟨ihE, ihO⟩
    | true =>
      have hpt := (takesFault_eq_true.1 hf).2
      have hll : ∀ p, lastLoad bs (l ++ [a]) p =
          if pageNumber a = p then some l.length else lastLoad bs l p := by
        intro p; rw [lastLoad_append, hf]; simp
      have hold : ∀ f, 0 ≤ f → f < 128 - (run bs l).free_frame_count →
          pageNumber a ≠ (run bs l).loaded_pages f := by
        intro f hf0 hf1 hx
        have := (hinv.used f hf0 hf1).2.2
        rw [← hx, hpt] at this
        omega
      by_cases h0 : 0 < (run bs l).free_frame_count
      · have hnew := translate_fault_free_frames hinv hf h0
        have hhead := hinv.head_zero h0
        rw [hnew.1, hnew.2.1, hnew.2.2, hhead]
        simp only [hll, store_apply]
        constructor
        · intro f hf0 hf1
          by_cases hfk : f = 128 - (run bs l).free_frame_count
          · rw [if_pos hfk, if_pos rfl]; exact ⟨_, rfl⟩
          · rw [if_neg hfk, if_neg (hold f hf0 (by omega))]
            exact ihE f hf0 (by omega)
        · intro f g tf tg hf0 hf1 hg0 hg1 hlt
          by_cases hfk : f = 128 - (run bs l).free_frame_count
          · omega
          · rw [if_neg hfk, if_neg (hold f hf0 (by omega))]
            by_cases hgk : g = 128 - (run bs l).free_frame_count
            · rw [if_pos hgk, if_pos rfl]
              intro h1 h2
              have := lastLoad_lt h1
              have h3 : l.length = tg := Option.some.inj h2
              omega
            · rw [if_neg hgk, if_neg (hold g hg0 (by omega))]
              exact ihO f g tf tg hf0 (by omega) hg0 (by omega) (by rw [hhead]; omega)
      · have hnew := translate_fault_evict_frames hinv hf h0
        have hc : (run bs l).free_frame_count = 0 := by omega
        rw [hnew.1, hnew.2.1, hnew.2.2]
        simp only [hll, store_apply]
        constructor
        · intro f hf0 hf1
          by_cases hfk : f = (run bs l).fifo_head
          · rw [if_pos hfk, if_pos rfl]; exact ⟨_, rfl⟩
          · rw [if_neg hfk, if_neg (hold f hf0 hf1)]
            exact ihE f hf0 hf1
        · intro f g tf tg hf0 hf1 hg0 hg1 hlt
          by_cases hfk : f = (run bs l).fifo_head
          · omega
          · rw [if_neg hfk, if_neg (hold f hf0 hf1)]
            by_cases hgk : g = (run bs l).fifo_head
            · rw [if_pos hgk, if_pos rfl]
              intro h1 h2
              have := lastLoad_lt h1
              have h3 : l.length = tg := Option.some.inj h2
              omega
            · rw [if_neg hgk, if_neg (hold g hg0 hg1)]
              exact ihO f g tf tg hf0 hf1 hg0 hg1 (by omega)

/-- C1: in every state reached from `init_structures` by `translate` calls in
which `free_frame_count = 0`, `handle_page_fault` for an unmapped page `q`
evicts the page `e` stored for the frame at the head of the FIFO queue, and
`e` is the resident page whose most recent load is the earliest: every other
resident page was last loaded by a strictly later call.  Page `e` loses its
mapping, `q` receives the frame `e` had, and no other page-table entry
changes.  The address list is arbitrary, so this holds whatever TLB hits or
page-table hits `e` received after it was loaded. -/
theorem fifo_eviction (bs : BackingStore) (addrs : List Int) (q : Int)
    (_hq0 : 0 ≤ q) (_hq1 : q < 256)
    (hfull : (run bs addrs).free_frame_count = 0)
    (hun : (run bs addrs).page_table q = -1) :
    ∃ e te,
      e = (run bs addrs).loaded_pages ((run bs addrs).fifo_queue (run bs addrs).fifo_head) ∧
      (0 ≤ e ∧ e < 256) ∧ (run bs addrs).page_table e ≠ -1 ∧
      lastLoad bs addrs e = some te ∧
      (∀ p, 0 ≤ p → p < 256 → p ≠ e → (run bs addrs).page_table p ≠ -1 →
        ∃ tp, lastLoad bs addrs p = some tp ∧ te < tp) ∧
      (handle_page_fault bs (run bs addrs) q).2.page_table e = -1 ∧
      (handle_page_fault bs (run bs addrs) q).1 = (run bs addrs).page_table e ∧
      (handle_page_fault bs (run bs addrs) q).2.page_table q = (run bs addrs).page_table e ∧
      (∀ p, 0 ≤ p → p < 256 → p ≠ e → p ≠ q →
        (handle_page_fault bs (run bs addrs) q).2.page_table p
          = (run bs addrs).page_table p) := by
  have hinv := inv_of_reachable (reachable_run bs addrs)
  obtain ⟨hE, hO⟩ := fifo_order bs addrs
  have hh0 := hinv.head_lo
  have hh1 := hinv.head_hi
  have hqh : (run bs addrs).fifo_queue (run bs addrs).fifo_head = (run bs addrs).fifo_head :=
    hinv.queue _ hh0 (by omega)
  have hu := hinv.used (run bs addrs).fifo_head hh0 (by omega)
  obtain ⟨te, hte⟩ := hE (run bs addrs).fifo_head hh0 (by omega)
  have h0 : ¬ 0 < (run bs addrs).free_frame_count := by omega
  have hne : (run bs addrs).loaded_pages (run bs addrs).fifo_head ≠ q := by
    intro hx
    rw [hx, hun] at hu
    omega
  refine ⟨(run bs addrs).loaded_pages (run bs addrs).fifo_head, te, by rw [hqh],
    ⟨hu.1, hu.2.1⟩, by rw [hu.2.2]; omega, hte, ?_, ?_, ?_, ?_, ?_⟩
  · intro p hp0 hp1 hpe hpm
    have hm := hinv.mapped p hp0 hp1 hpm
    have hfne : (run bs addrs).page_table p ≠ (run bs addrs).fifo_head := by
      intro hx
      rw [hx] at hm
      exact hpe hm.2.2.symm
    obtain ⟨tp, htp⟩ := hE _ hm.1 hm.2.1
    rw [hm.2.2] at htp
    refine ⟨tp, htp, ?_⟩
    exact hO (run bs addrs).fifo_head ((run bs addrs).page_table p) te tp hh0 (by omega)
      hm.1 hm.2.1 (by omega) hte (by rw [hm.2.2]; exact htp)
  · rw [handle_page_fault_evict bs _ _ h0, hqh]
    simp [store_apply, hne]
  · rw [handle_page_fault_evict bs _ _ h0, hqh, hu.2.2]
  · rw [handle_page_fault_evict bs _ _ h0, hqh, hu.2.2]
    simp [store_apply]
  · intro p hp0 hp1 hpe hpq
    rw [handle_page_fault_evict bs _ _ h0, hqh]
    simp [store_apply, hpe, hpq]

theorem fifo_eviction_witness :
    ∃ e te,
      e = (run sampleStore coldAddrs).loaded_pages
        ((run sampleStore coldAddrs).fifo_queue (run sampleStore coldAddrs).fifo_head) ∧
      (0 ≤ e ∧ e < 256) ∧ (run sampleStore coldAddrs).page_table e ≠ -1 ∧
      lastLoad sampleStore coldAddrs e = some te ∧
      (∀ p, 0 ≤ p → p < 256 → p ≠ e → (run sampleStore coldAddrs).page_table p ≠ -1 →
        ∃ tp, lastLoad sampleStore coldAddrs p = some tp ∧ te < tp) ∧
      (handle_page_fault sampleStore (run sampleStore coldAddrs) 200).2.page_table e = -1 ∧
      (handle_page_fault sampleStore (run sampleStore coldAddrs) 200).1
        = (run sampleStore coldAddrs).page_table e ∧
      (handle_page_fault sampleStore (run sampleStore coldAddrs) 200).2.page_table 200
        = (run sampleStore coldAddrs).page_table e ∧
      (∀ p, 0 ≤ p → p < 256 → p ≠ e → p ≠ 200 →
        (handle_page_fault sampleStore (run sampleStore coldAddrs) 200).2.page_table p
          = (run sampleStore coldAddrs).page_table p) :=
  fifo_eviction sampleStore coldAddrs 200 (by decide) (by decide)
    (coldAddrs_full sampleStore)
    ((cold_run sampleStore coldAddrs (by rw [coldAddrs_length])).2.2.2.2.2 200
      (by decide) (by decide) coldAddrs_fresh)

/-! ## TLB insert slot choice (C15) -/

theorem update_tlb_scan_first_empty (s : VM) (l : List Int) (lru : Int)
    (hs : l.Pairwise (· < ·)) (e : Int) (he : e ∈ l) (hemp : (s.tlb e).1 = -1) :
    (update_tlb_scan s l lru).2 ∈ l ∧ (s.tlb (update_tlb_scan s l lru).2).1 = -1 ∧
      ∀ i ∈ l, i < (update_tlb_scan s l lru).2 → (s.tlb i).1 ≠ -1 := by
  induction l generalizing lru with
  | nil => simp at he
  | cons i l ih =>
    rw [List.pairwise_cons] at hs
    unfold update_tlb_scan
    by_cases h1 : (s.tlb i).1 = -1
    · rw [if_pos h1]
      refine ⟨List.mem_cons_self _ _, h1, ?_⟩
      intro j hj hlt
      rcases List.mem_cons.1 hj with hj | hj
      · omega
      · have := hs.1 j hj; omega
    · simp only [h1, if_false]
      have he2 : e ∈ l := by
        rcases List.mem_cons.1 he with h | h
        · rw [h] at hemp; exact absurd hemp h1
        · exact h
      obtain ⟨a1, a2, a3⟩ := ih _ hs.2 he2
      refine ⟨List.mem_cons_of_mem _ a1, a2, ?_⟩
      intro j hj hlt
      rcases List.mem_cons.1 hj with hj | hj
      · rw [hj]; exact h1
      · exact a3 j hj hlt

theorem update_tlb_scan_full (s : VM) (l : List Int) (lru : Int)
    (hfull : ∀ i ∈ l, (s.tlb i).1 ≠ -1) (hlo : ∀ i ∈ l, lru ≤ i)
    (hs : l.Pairwise (· < ·)) :
    (update_tlb_scan s l lru).2 = -1 ∧
      ((update_tlb_scan s l lru).1 = lru ∨ (update_tlb_scan s l lru).1 ∈ l) ∧
      s.tlb_usage (update_tlb_scan s l lru).1 ≤ s.tlb_usage lru ∧
      (∀ i ∈ l, s.tlb_usage (update_tlb_scan s l lru).1 ≤ s.tlb_usage i) ∧
      ((update_tlb_scan s l lru).1 ≠ lru →
        s.tlb_usage (update_tlb_scan s l lru).1 < s.tlb_usage lru) ∧
      (∀ i ∈ l, i < (update_tlb_scan s l lru).1 →
        s.tlb_usage (update_tlb_scan s l lru).1 < s.tlb_usage i) := by
  induction l generalizing lru with
  | nil =>
    refine ⟨rfl, Or.inl rfl, le_refl _, ?_, ?_, ?_⟩
    · intro i hi; simp at hi
    · intro h; exact absurd rfl h
    · intro i hi; simp at hi
  | cons i l ih =>
    rw [List.pairwise_cons] at hs
    have h1 : (s.tlb i).1 ≠ -1 := hfull i (List.mem_cons_self _ _)
    have hli : lru ≤ i := hlo i (List.mem_cons_self _ _)
    have hfull2 : ∀ j ∈ l, (s.tlb j).1 ≠ -1 := fun j hj => hfull j (List.mem_cons_of_mem _ hj)
    unfold update_tlb_scan
    simp only [h1, if_false]
    by_cases h2 : s.tlb_usage i < s.tlb_usage lru
    · simp only [h2, if_true]
      obtain ⟨a1, a2, a3, a4, a5, a6⟩ :=
        ih i hfull2 (fun j hj => le_of_lt (hs.1 j hj)) hs.2
      refine ⟨a1, ?_, by omega, ?_, ?_, ?_⟩
      · rcases a2 with h | h
        · right; rw [h]; exact List.mem_cons_self _ _
        · exact Or.inr (List.mem_cons_of_mem _ h)
      · intro j hj
        rcases List.mem_cons.1 hj with hj | hj
        · rw [hj]; exact a3
        · exact a4 j hj
      · intro _; omega
      · intro j hj hlt
        rcases List.mem_cons.1 hj with hj | hj
        · rw [hj] at hlt ⊢
          exact a5 (by omega)
        · exact a6 j hj hlt
    · simp only [h2, if_false]
      obtain ⟨a1, a2, a3, a4, a5, a6⟩ :=
        ih lru hfull2 (fun j hj => hlo j (List.mem_cons_of_mem _ hj)) hs.2
      refine ⟨a1, ?_, a3, ?_, a5, ?_⟩
      · rcases a2 with h | h
        · exact Or.inl h
        · exact Or.inr (List.mem_cons_of_mem _ h)
      · intro j hj
        rcases List.mem_cons.1 hj with hj | hj
        · rw [hj]; omega
        · exact a4 j hj
      · intro j hj hlt
        rcases List.mem_cons.1 hj with hj | hj
        · rw [hj] at hlt ⊢
          have := a5 (by omega)
          omega
        · exact a6 j hj hlt

theorem loopRange_sorted (n : Nat) : (loopRange n).Pairwise (· < ·) := by
  unfold loopRange
  rw [List.pairwise_map]
  exact (List.pairwise_lt_range n).imp (fun h => Int.ofNat_lt.2 h)

theorem update_tlb_index_empty (s : VM) (e : Int) (he : 0 ≤ e ∧ e < 16)
    (hemp : (s.tlb e).1 = -1) :
    (s.tlb (update_tlb_index s)).1 = -1 ∧
      ∀ i, 0 ≤ i → i < update_tlb_index s → (s.tlb i).1 ≠ -1 := by
  obtain ⟨a1, a2, a3⟩ := update_tlb_scan_first_empty s (loopRange TLB_SIZE) 0
    (loopRange_sorted _) e ((mem_loopRange _ _).2 ⟨he.1, by simpa using he.2⟩) hemp
  have hr := (mem_loopRange _ _).1 a1
  have hne : (update_tlb_scan s (loopRange TLB_SIZE) 0).2 ≠ -1 := by omega
  have hidx : update_tlb_index s = (update_tlb_scan s (loopRange TLB_SIZE) 0).2 := by
    unfold update_tlb_index
    simp only [hne, ne_eq, not_false_eq_true, if_true]
  rw [hidx]
  refine ⟨a2, ?_⟩
  intro i hi0 hi1
  have hi16 : i < 16 := by have := hr.2; simp at this; omega
  exact a3 i ((mem_loopRange _ _).2 ⟨hi0, by simpa using hi16⟩) hi1

theorem update_tlb_index_full (s : VM) (hfull : ∀ i, 0 ≤ i → i < 16 → (s.tlb i).1 ≠ -1) :
    (∀ i, 0 ≤ i → i < 16 → s.tlb_usage (update_tlb_index s) ≤ s.tlb_usage i) ∧
      ∀ i, 0 ≤ i → i < update_tlb_index s →
        s.tlb_usage (update_tlb_index s) < s.tlb_usage i := by
  have hmem : ∀ i ∈ loopRange TLB_SIZE, 0 ≤ i ∧ i < 16 := fun i hi => by
    simpa using (mem_loopRange _ _).1 hi
  obtain ⟨a1, a2, a3, a4, a5, a6⟩ := update_tlb_scan_full s (loopRange TLB_SIZE) 0
    (fun i hi => hfull i (hmem i hi).1 (hmem i hi).2) (fun i hi => (hmem i hi).1)
    (loopRange_sorted _)
  have hidx : update_tlb_index s = (update_tlb_scan s (loopRange TLB_SIZE) 0).1 := by
    unfold update_tlb_index
    simp only [a1, ne_eq, not_true_eq_false, if_false]
  have hr := update_tlb_index_range s
  rw [hidx] at hr ⊢
  constructor
  · intro i hi0 hi1
    exact a4 i ((mem_loopRange _ _).2 ⟨hi0, by simpa using hi1⟩)
  · intro i hi0 hi1
    exact a6 i ((mem_loopRange _ _).2 ⟨hi0, by simpa using (by omega : i < 16)⟩) hi1

/-- C15: for every state (reachable or not) and every page/frame pair,
`update_tlb` writes the pair with stamp `tlb_counter + 1` into one slot `j` of
the 16: the lowest-index empty slot (`tlb[j][0] = -1`) if any slot is empty,
otherwise the lowest-index slot among those holding the minimum `tlb_usage`
value.  It increments `tlb_counter` by 1 and leaves the page, frame and stamp
of every other slot unchanged. -/
theorem update_tlb_slot_choice (s : VM) (p f : Int) :
    (0 ≤ update_tlb_index s ∧ update_tlb_index s < 16) ∧
      ((∃ e, (0 ≤ e ∧ e < 16) ∧ (s.tlb e).1 = -1) →
        (s.tlb (update_tlb_index s)).1 = -1 ∧
          ∀ i, 0 ≤ i → i < update_tlb_index s → (s.tlb i).1 ≠ -1) ∧
      ((∀ i, 0 ≤ i → i < 16 → (s.tlb i).1 ≠ -1) →
        (∀ i, 0 ≤ i → i < 16 → s.tlb_usage (update_tlb_index s) ≤ s.tlb_usage i) ∧
          ∀ i, 0 ≤ i → i < update_tlb_index s →
            s.tlb_usage (update_tlb_index s) < s.tlb_usage i) ∧
      (update_tlb s p f).tlb (update_tlb_index s) = (p, f) ∧
      (update_tlb s p f).tlb_usage (update_tlb_index s) = s.tlb_counter + 1 ∧
      (update_tlb s p f).tlb_counter = s.tlb_counter + 1 ∧
      ∀ i, i ≠ update_tlb_index s →
        (update_tlb s p f).tlb i = s.tlb i ∧ (update_tlb s p f).tlb_usage i = s.tlb_usage i := by
  refine ⟨update_tlb_index_range s, ?_, update_tlb_index_full s, ?_, ?_, rfl, ?_⟩
  · rintro ⟨e, he, hemp⟩
    exact update_tlb_index_empty s e he hemp
  · simp [update_tlb, store_apply]
  · simp [update_tlb, store_apply]
  · intro i hi
    simp [update_tlb, store_apply, hi]

/-! ## TLB uniqueness (C12) -/

/-- C12: in every reachable state no page number occupies more than one TLB
slot: for slots `i ≠ j` with `tlb[i][0] ≠ -1`, `tlb[i][0] ≠ tlb[j][0]`. -/
theorem tlb_uniqueness (bs : BackingStore) (s : VM) (hs : Reachable bs s) (i j : Int)
    (hi0 : 0 ≤ i) (hi1 : i < 16) (hj0 : 0 ≤ j) (hj1 : j < 16) (hij : i ≠ j)
    (hv : (s.tlb i).1 ≠ -1) : (s.tlb i).1 ≠ (s.tlb j).1 :=
  fun he => hij ((inv_of_reachable hs).tlb_uniq i j hi0 hi1 hj0 hj1 hv he)

set_option maxRecDepth 100000 in
theorem tlb_uniqueness_witness :
    ((run sampleStore [513, 7]).tlb 0).1 ≠ ((run sampleStore [513, 7]).tlb 1).1 :=
  tlb_uniqueness sampleStore (run sampleStore [513, 7]) (reachable_run sampleStore [513, 7])
    0 1 (by decide) (by decide) (by decide) (by decide) (by decide) (by decide)

/-! ## Non-faulting translations (C16) -/

/-- C16: for every reachable state and every address, if `translate` does not take
the page-fault path (it is a TLB hit or a page-table hit), then `page_table`,
`loaded_pages`, `free_frames`, `free_frame_count`, `fifo_queue`, `fifo_head`,
`fifo_tail`, `physical_memory` and `page_faults` are unchanged by the call; in
particular the FIFO order is not adjusted by an access. -/
theorem no_fault_keeps_residency (bs : BackingStore) (s : VM) (_hs : Reachable bs s)
    (a : Int) (hnf : takesFault s a = false) :
    (translate bs s a).2.page_table = s.page_table ∧
      (translate bs s a).2.loaded_pages = s.loaded_pages ∧
      (translate bs s a).2.free_frames = s.free_frames ∧
      (translate bs s a).2.free_frame_count = s.free_frame_count ∧
      (translate bs s a).2.fifo_queue = s.fifo_queue ∧
      (translate bs s a).2.fifo_head = s.fifo_head ∧
      (translate bs s a).2.fifo_tail = s.fifo_tail ∧
      (translate bs s a).2.physical_memory = s.physical_memory ∧
      (translate bs s a).2.page_faults = s.page_faults :=
  translate_no_fault bs hnf

set_option maxRecDepth 100000 in
theorem no_fault_keeps_residency_witness :
    (translate sampleStore (run sampleStore [513]) 520).2.page_table
        = (run sampleStore [513]).page_table ∧
      (translate sampleStore (run sampleStore [513]) 520).2.loaded_pages
        = (run sampleStore [513]).loaded_pages ∧
      (translate sampleStore (run sampleStore [513]) 520).2.free_frames
        = (run sampleStore [513]).free_frames ∧
      (translate sampleStore (run sampleStore [513]) 520).2.free_frame_count
        = (run sampleStore [513]).free_frame_count ∧
      (translate sampleStore (run sampleStore [513]) 520).2.fifo_queue
        = (run sampleStore [513]).fifo_queue ∧
      (translate sampleStore (run sampleStore [513]) 520).2.fifo_head
        = (run sampleStore [513]).fifo_head ∧
      (translate sampleStore (run sampleStore [513]) 520).2.fifo_tail
        = (run sampleStore [513]).fifo_tail ∧
      (translate sampleStore (run sampleStore [513]) 520).2.physical_memory
        = (run sampleStore [513]).physical_memory ∧
      (translate sampleStore (run sampleStore [513]) 520).2.page_faults
        = (run sampleStore [513]).page_faults :=
  no_fault_keeps_residency sampleStore (run sampleStore [513])
    (reachable_run sampleStore [513]) 520 (by decide)

/-! ## Counting invariant (C13) -/

theorem takesTlbHit_eq_true {s : VM} {a : Int} :
    takesTlbHit s a = true ↔ ∃ i, tlb_find s (pageNumber a) = some i := by
  unfold takesTlbHit
  rw [Option.isSome_iff_exists]

theorem takesTableHit_eq_true {s : VM} {a : Int} :
    takesTableHit s a = true ↔
      tlb_find s (pageNumber a) = none ∧ s.page_table (pageNumber a) ≠ -1 := by
  simp [takesTableHit, page_table_lookup]

/-- Which of the three paths a call of `translate` takes, and what it does to
the two counters. -/
theorem translate_paths (bs : BackingStore) (s : VM) (a : Int) :
    (takesTlbHit s a = true ∧ takesTableHit s a = false ∧ takesFault s a = false ∧
        (translate bs s a).2.tlb_hits = s.tlb_hits + 1 ∧
        (translate bs s a).2.page_faults = s.page_faults) ∨
      (takesTlbHit s a = false ∧ takesTableHit s a = true ∧ takesFault s a = false ∧
        (translate bs s a).2.tlb_hits = s.tlb_hits ∧
        (translate bs s a).2.page_faults = s.page_faults) ∨
      (takesTlbHit s a = false ∧ takesTableHit s a = false ∧ takesFault s a = true ∧
        (translate bs s a).2.tlb_hits = s.tlb_hits ∧
        (translate bs s a).2.page_faults = s.page_faults + 1) := by
  cases hf : tlb_find s (pageNumber a) with
  | some i =>
    left
    rw [translate_hit bs hf]
    refine ⟨takesTlbHit_eq_true.2 ⟨i, hf⟩, ?_, ?_, rfl, rfl⟩
    · simp [takesTableHit, hf]
    · simp [takesFault, hf]
  | none =>
    have hnh : takesTlbHit s a = false := by simp [takesTlbHit, hf]
    by_cases hpt : s.page_table (pageNumber a) = -1
    · right; right
      have htf : takesFault s a = true := takesFault_eq_true.2 ⟨hf, hpt⟩
      refine ⟨hnh, by simp [takesTableHit, hf, page_table_lookup, hpt], htf, ?_, ?_⟩
      · rw [translate_fault bs htf]
        by_cases h0 : 0 < s.free_frame_count
        · rw [handle_page_fault_free bs s _ h0]; rfl
        · rw [handle_page_fault_evict bs s _ h0]; rfl
      · rw [translate_page_faults, htf]; rfl
    · right; left
      have htf : takesFault s a = false := mapped_not_takesFault hpt
      refine ⟨hnh, takesTableHit_eq_true.2 ⟨hf, hpt⟩, htf, ?_, ?_⟩
      · simp only [translate, resolve_mapped bs hf hpt, update_tlb]
      · exact (translate_no_fault bs htf).2.2.2.2.2.2.2.2

theorem translate_total (bs : BackingStore) (s : VM) (a : Int) :
    (translate bs s a).2.total_addresses = s.total_addresses := by
  cases hf : tlb_find s (pageNumber a) with
  | some i => rw [translate_hit bs hf]
  | none =>
    by_cases hpt : s.page_table (pageNumber a) = -1
    · have htf : takesFault s a = true := takesFault_eq_true.2 ⟨hf, hpt⟩
      rw [translate_fault bs htf]
      by_cases h0 : 0 < s.free_frame_count
      · rw [handle_page_fault_free bs s _ h0]; rfl
      · rw [handle_page_fault_evict bs s _ h0]; rfl
    · simp only [translate, resolve_mapped bs hf hpt, update_tlb]

theorem mainStep_total (bs : BackingStore) (s : VM) (a : Int) :
    (mainStep bs s a).2.total_addresses = s.total_addresses + 1 := by
  unfold mainStep
  rw [translate_total]

theorem mainStep_paths (bs : BackingStore) (s : VM) (a : Int) :
    (takesTlbHit s a = true ∧ takesTableHit s a = false ∧ takesFault s a = false ∧
        (mainStep bs s a).2.tlb_hits = s.tlb_hits + 1 ∧
        (mainStep bs s a).2.page_faults = s.page_faults) ∨
      (takesTlbHit s a = false ∧ takesTableHit s a = true ∧ takesFault s a = false ∧
        (mainStep bs s a).2.tlb_hits = s.tlb_hits ∧
        (mainStep bs s a).2.page_faults = s.page_faults) ∨
      (takesTlbHit s a = false ∧ takesTableHit s a = false ∧ takesFault s a = true ∧
        (mainStep bs s a).2.tlb_hits = s.tlb_hits ∧
        (mainStep bs s a).2.page_faults = s.page_faults + 1) :=
  translate_paths bs { s with total_addresses := s.total_addresses + 1 } a

theorem mainRunFrom_count (bs : BackingStore) (addrs : List Int) :
    ∀ s : VM,
      (mainRunFrom bs s addrs).total_addresses = s.total_addresses + addrs.length ∧
      (mainRunFrom bs s addrs).total_addresses - s.total_addresses =
        ((mainRunFrom bs s addrs).tlb_hits - s.tlb_hits) + (pageTableHits bs s addrs : Int) +
          ((mainRunFrom bs s addrs).page_faults - s.page_faults) := by
  induction addrs with
  | nil => intro s; simp [mainRunFrom, pageTableHits]
  | cons a l ih =>
    intro s
    have hstep : mainRunFrom bs s (a :: l) = mainRunFrom bs (mainStep bs s a).2 l := rfl
    obtain ⟨ih1, ih2⟩ := ih (mainStep bs s a).2
    have ht := mainStep_total bs s a
    rw [hstep]
    refine ⟨by rw [ih1, ht, List.length_cons]; push_cast; ring, ?_⟩
    simp only [pageTableHits]
    rcases mainStep_paths bs s a with ⟨_, h2, _, h4, h5⟩ | ⟨_, h2, _, h4, h5⟩ |
        ⟨_, h2, _, h4, h5⟩ <;>
      · simp only [h2, if_true, Bool.false_eq_true, if_false]
        push_cast
        omega

/-- C13: for every address sequence processed from `init_structures` by the read
loop (`total_addresses++` then `translate`), each iteration adds 1 to
`total_addresses` and is exactly one of: a TLB hit (`tlb_hits + 1` only), a
page-table hit (neither counter changes), or a page fault (`page_faults + 1`
only).  Hence at the end `total_addresses` is the number of addresses and
equals `tlb_hits + pageTableHits + page_faults`, where `pageTableHits` counts
the iterations that missed the TLB but found the page mapped. -/
theorem counting_invariant (bs : BackingStore) (addrs : List Int) :
    (∀ (s : VM) (a : Int),
      (mainStep bs s a).2.total_addresses = s.total_addresses + 1 ∧
      ((takesTlbHit s a = true ∧ takesTableHit s a = false ∧ takesFault s a = false ∧
          (mainStep bs s a).2.tlb_hits = s.tlb_hits + 1 ∧
          (mainStep bs s a).2.page_faults = s.page_faults) ∨
        (takesTlbHit s a = false ∧ takesTableHit s a = true ∧ takesFault s a = false ∧
          (mainStep bs s a).2.tlb_hits = s.tlb_hits ∧
          (mainStep bs s a).2.page_faults = s.page_faults) ∨
        (takesTlbHit s a = false ∧ takesTableHit s a = false ∧ takesFault s a = true ∧
          (mainStep bs s a).2.tlb_hits = s.tlb_hits ∧
          (mainStep bs s a).2.page_faults = s.page_faults + 1))) ∧
      (mainRun bs addrs).total_addresses = addrs.length ∧
      (mainRun bs addrs).total_addresses =
        (mainRun bs addrs).tlb_hits + (pageTableHits bs initial addrs : Int) +
          (mainRun bs addrs).page_faults := by
  refine ⟨fun s a => ⟨mainStep_total bs s a, mainStep_paths bs s a⟩, ?_, ?_⟩
  · have := (mainRunFrom_count bs addrs initial).1
    have h0 : initial.total_addresses = 0 := rfl
    rw [h0] at this
    simpa [mainRun] using this
  · have := (mainRunFrom_count bs addrs initial).2
    have h0 : initial.total_addresses = 0 := rfl
    have h1 : initial.tlb_hits = 0 := rfl
    have h2 : initial.page_faults = 0 := rfl
    rw [h0, h1, h2] at this
    unfold mainRun
    omega

/-! ## Free-pool accounting (C14) -/

theorem loopRange_succ (n : Nat) : loopRange (n + 1) = loopRange n ++ [(n : Int)] := by
  simp [loopRange, List.range_succ]

theorem count_below (n : Nat) (k : Int) (hk0 : 0 ≤ k) :
    (((loopRange n).filter (fun f => decide (f < k))).length : Int) = min (n : Int) k := by
  induction n with
  | zero => simp [loopRange]; omega
  | succ n ih =>
    rw [loopRange_succ, List.filter_append, List.length_append]
    push_cast
    rw [ih]
    by_cases h : (n : Int) < k
    · simp [List.filter, h]; omega
    · simp [List.filter, h]; omega

theorem occupiedFrames_eq {bs : BackingStore} {s : VM} (h : Inv bs s) :
    (occupiedFrames s : Int) = 128 - s.free_frame_count := by
  have hc0 := h.count_lo
  have hc1 := h.count_hi
  unfold occupiedFrames
  have hcongr : (loopRange PHYSICAL_FRAMES).filter (fun f => decide (s.loaded_pages f ≠ -1))
      = (loopRange PHYSICAL_FRAMES).filter (fun f => decide (f < 128 - s.free_frame_count)) := by
    apply List.filter_congr
    intro f hf
    have hr := (mem_loopRange _ _).1 hf
    have hr2 : f < 128 := by simpa using hr.2
    by_cases hlt : f < 128 - s.free_frame_count
    · have := (h.used f hr.1 hlt).1
      simp [hlt]; omega
    · have := h.unused f (by omega) hr2
      simp [hlt, this]
  rw [hcongr, count_below _ _ (by omega)]
  simp only [PHYSICAL_FRAMES]
  omega

theorem translate_free_frame_count (bs : BackingStore) (s : VM) (a : Int) :
    (translate bs s a).2.free_frame_count ≤ s.free_frame_count := by
  cases hf : takesFault s a with
  | false => rw [(translate_no_fault bs hf).2.2.2.1]
  | true =>
    rw [translate_fault bs hf]
    by_cases h0 : 0 < s.free_frame_count
    · rw [handle_page_fault_free bs s _ h0]
      show s.free_frame_count - 1 ≤ _
      omega
    · rw [handle_page_fault_evict bs s _ h0]
      exact le_refl _

/-- C14: in every reachable state `free_frame_count` plus the number of frames
currently holding a page (`loaded_pages[f] != -1`) equals 128
(`PHYSICAL_FRAMES`), and `free_frame_count` never increases across a call of
`translate`. -/
theorem free_pool_accounting (bs : BackingStore) (s : VM) (hs : Reachable bs s) :
    s.free_frame_count + (occupiedFrames s : Int) = 128 ∧
      ∀ a, (translate bs s a).2.free_frame_count ≤ s.free_frame_count := by
  refine ⟨?_, translate_free_frame_count bs s⟩
  rw [occupiedFrames_eq (inv_of_reachable hs)]
  omega

theorem free_pool_accounting_witness :
    (run sampleStore [513, 7]).free_frame_count
        + (occupiedFrames (run sampleStore [513, 7]) : Int) = 128 ∧
      ∀ a, (translate sampleStore (run sampleStore [513, 7]) a).2.free_frame_count
        ≤ (run sampleStore [513, 7]).free_frame_count :=
  free_pool_accounting sampleStore (run sampleStore [513, 7])
    (reachable_run sampleStore [513, 7])

/-! ## Page-table transitions (C17) -/

/-- C17: for every reachable state and every call of `translate`, a page-table
entry that changes is either the entry of the translated page, going from
unmapped to mapped on a page fault, or the entry of the one page
`loaded_pages[fifo_queue[fifo_head]]`, going from mapped to unmapped on a
fault taken with `free_frame_count = 0`.  So at most two entries change, no
entry goes from one frame number directly to another, and every other entry
is unchanged. -/
theorem page_table_transitions (bs : BackingStore) (s : VM) (hs : Reachable bs s) (a : Int) :
    ∀ p, 0 ≤ p → p < 256 → (translate bs s a).2.page_table p ≠ s.page_table p →
      (p = pageNumber a ∧ s.page_table p = -1 ∧ (translate bs s a).2.page_table p ≠ -1 ∧
        takesFault s a = true) ∨
      (p ≠ pageNumber a ∧ s.page_table p ≠ -1 ∧ (translate bs s a).2.page_table p = -1 ∧
        takesEviction s a = true ∧ s.free_frame_count = 0 ∧
        p = s.loaded_pages (s.fifo_queue s.fifo_head)) := by
  intro p hp0 hp1 hch
  have h := inv_of_reachable hs
  rcases Bool.eq_false_or_eq_true (takesFault s a) with hf | hf
  · have hpt := (takesFault_eq_true.1 hf).2
    have hlo := h.head_lo
    have hhi := h.head_hi
    have hchi := h.count_hi
    by_cases h0 : 0 < s.free_frame_count
    · have hnew := (translate_fault_free h hf h0).1
      rw [hnew] at hch ⊢
      by_cases hp : p = pageNumber a
      · left
        refine ⟨hp, by rw [hp]; exact hpt, ?_, hf⟩
        rw [store_apply, if_pos hp]
        omega
      · rw [store_apply, if_neg hp] at hch
        exact absurd rfl hch
    · have hc : s.free_frame_count = 0 := by have := h.count_lo; omega
      have hq : s.fifo_queue s.fifo_head = s.fifo_head := h.queue _ hlo (by omega)
      have hu := h.used s.fifo_head hlo (by omega)
      have hnew : (translate bs s a).2.page_table
          = store (store s.page_table (s.loaded_pages s.fifo_head) (-1)) (pageNumber a)
              s.fifo_head := by
        rw [translate_fault bs hf, handle_page_fault_evict bs s _ h0, hq]
        rfl
      rw [hnew] at hch ⊢
      rw [hq]
      by_cases hp : p = pageNumber a
      · left
        refine ⟨hp, by rw [hp]; exact hpt, ?_, hf⟩
        rw [store_apply, if_pos hp]
        omega
      · right
        rw [store_apply, if_neg hp, store_apply] at hch ⊢
        by_cases hpe : p = s.loaded_pages s.fifo_head
        · refine ⟨hp, ?_, if_pos hpe, by simp [takesEviction, hf, h0], hc, hpe⟩
          rw [hpe, hu.2.2]
          omega
        · rw [if_neg hpe] at hch
          exact absurd rfl hch
  · rw [(translate_no_fault bs hf).1] at hch
    exact absurd rfl hch

set_option maxRecDepth 100000 in
theorem page_table_transitions_witness :
    (2 = pageNumber 513 ∧ initial.page_table 2 = -1 ∧
        (translate sampleStore initial 513).2.page_table 2 ≠ -1 ∧
        takesFault initial 513 = true) ∨
      (2 ≠ pageNumber 513 ∧ initial.page_table 2 ≠ -1 ∧
        (translate sampleStore initial 513).2.page_table 2 = -1 ∧
        takesEviction initial 513 = true ∧ initial.free_frame_count = 0 ∧
        2 = initial.loaded_pages (initial.fifo_queue initial.fifo_head)) :=
  page_table_transitions sampleStore initial Reachable.init 513 2 (by decide) (by decide)
    (by decide)

/-! ## End-to-end transparency (C18) -/

theorem translate_value {bs : BackingStore} {s : VM} (h : Inv bs s) (a : Int) :
    (translate bs s a).1.logical_address = a ∧
      (translate bs s a).1.value
        = toSigned (bs (pageNumber a * 256 + pageOffset a)) := by
  obtain ⟨i, h1, h2⟩ := translate_cached bs s a
  have hinv : Inv bs (translate bs s a).2 := inv_translate h a
  have hi := tlb_find_some h1
  have hr := pageNumber_range a
  have ho := pageOffset_range a
  have hok := hinv.tlb_ok i hi.1.1 hi.1.2 (by rw [hi.2]; omega)
  rw [hi.2] at hok
  have hm := hinv.mapped (pageNumber a) hr.1 hr.2 (by rw [hok.2.2.1]; exact hok.2.2.2)
  rw [hok.2.2.1] at hm
  have hmem := hinv.memory _ (pageOffset a) hm.1 hm.2.1 ho.1 ho.2
  rw [hm.2.2] at hmem
  rw [h2]
  refine ⟨rfl, ?_⟩
  show toSigned _ = _
  simp only [PAGE_SIZE]
  rw [hmem]

theorem outputs_values (bs : BackingStore) (addrs : List Int)
    (hr : ∀ a ∈ addrs, 0 ≤ a ∧ a ≤ 65535) :
    ∀ s : VM, Inv bs s →
      (outputs bs s addrs).map (fun o => o.value) = directLookup bs addrs ∧
      (outputs bs s addrs).map (fun o => o.logical_address) = addrs := by
  induction addrs with
  | nil => intro s _; exact ⟨rfl, rfl⟩
  | cons a l ih =>
    intro s hs
    have ha := hr a (List.mem_cons_self _ _)
    obtain ⟨ih1, ih2⟩ := ih (fun b hb => hr b (List.mem_cons_of_mem _ hb))
      (translate bs s a).2 (inv_translate hs a)
    have hv := translate_value hs a
    rw [pageNumber_pageOffset a ha.1 ha.2] at hv
    simp only [outputs, List.map_cons, directLookup] at ih1 ih2 ⊢
    rw [ih1, ih2, hv.1, hv.2]
    exact ⟨rfl, rfl⟩

/-- C18: with the backing store a fixed array of bytes whose reads succeed, for
every finite sequence of logical addresses in `[0, 65535]` processed from
`init_structures`, every `translate(a)` of the sequence prints as value the
byte `a` of the backing store read as a signed 8-bit integer, whatever TLB
hits, page-table hits, faults and evictions came before: the value stream of
the translator equals the direct lookup `store[a]`. -/
theorem memory_transparency (bs : BackingStore) (addrs : List Int)
    (hr : ∀ a ∈ addrs, 0 ≤ a ∧ a ≤ 65535) :
    (outputs bs initial addrs).map (fun o => o.value) = directLookup bs addrs ∧
      (outputs bs initial addrs).map (fun o => o.logical_address) = addrs :=
  outputs_values bs addrs hr initial (inv_initial bs)

theorem memory_transparency_witness :
    (outputs sampleStore initial [513, 7, 65535, 513]).map (fun o => o.value)
        = directLookup sampleStore [513, 7, 65535, 513] ∧
      (outputs sampleStore initial [513, 7, 65535, 513]).map (fun o => o.logical_address)
        = [513, 7, 65535, 513] :=
  memory_transparency sampleStore [513, 7, 65535, 513] (by decide)

/-! ## Index safety (C19) -/

theorem resolve_frame_range {bs : BackingStore} {s : VM} (h : Inv bs s) (a : Int) :
    0 ≤ (resolve bs s (pageNumber a)).1 ∧ (resolve bs s (pageNumber a)).1 < 128 := by
  have hr := pageNumber_range a
  have hc := h.count_lo
  cases hf : tlb_find s (pageNumber a) with
  | some i =>
    rw [resolve_hit bs hf]
    have hi := tlb_find_some hf
    have hok := h.tlb_ok i hi.1.1 hi.1.2 (by rw [hi.2]; omega)
    rw [hi.2] at hok
    have hm := h.mapped (pageNumber a) hr.1 hr.2 (by rw [hok.2.2.1]; exact hok.2.2.2)
    rw [hok.2.2.1] at hm
    exact ⟨hm.1, by omega⟩
  | none =>
    by_cases hpt : s.page_table (pageNumber a) = -1
    · rw [resolve_fault bs hf hpt]
      exact handle_page_fault_frame_range h (pageNumber a)
    · rw [resolve_mapped bs hf hpt]
      have hm := h.mapped (pageNumber a) hr.1 hr.2 hpt
      exact ⟨hm.1, by omega⟩

/-- C19: in every reachable state and for every `int` logical address (negative
values and values above 65535 included) the array indices used by
`translate` are in bounds.  The page number is in `[0, 255]`; a TLB hit is at
a slot in `[0, 16)` and yields a frame in `[0, 128)`; a mapped page-table
entry is a frame in `[0, 128)`; on a page fault the free-stack index
`free_frame_count - 1` is in `[0, 128)` when a frame is free, and otherwise
`fifo_head` is in `[0, 128)`, `fifo_queue[fifo_head]` is a frame in `[0, 128)`
and its `loaded_pages` entry is a page in `[0, 255]` (never `-1`); `fifo_tail`
is in `[0, 128)` and the frame returned is in `[0, 128)`, so the 256 bytes
read from the store land inside `physical_memory`; the slot scanned for and
chosen by `update_tlb` is in `[0, 16)`; the frame `translate` ends with is in
`[0, 128)` and the physical address is in `[0, 32768)`. -/
theorem index_safety (bs : BackingStore) (s : VM) (hs : Reachable bs s) (a : Int) :
    (0 ≤ pageNumber a ∧ pageNumber a ≤ 255) ∧
      (∀ i, tlb_find s (pageNumber a) = some i →
        (0 ≤ i ∧ i < 16) ∧ (0 ≤ (s.tlb i).2 ∧ (s.tlb i).2 < 128)) ∧
      (tlb_find s (pageNumber a) = none → s.page_table (pageNumber a) ≠ -1 →
        0 ≤ s.page_table (pageNumber a) ∧ s.page_table (pageNumber a) < 128) ∧
      (takesFault s a = true →
        (0 < s.free_frame_count →
          0 ≤ s.free_frame_count - 1 ∧ s.free_frame_count - 1 < 128) ∧
        (¬ 0 < s.free_frame_count →
          (0 ≤ s.fifo_head ∧ s.fifo_head < 128) ∧
          (0 ≤ s.fifo_queue s.fifo_head ∧ s.fifo_queue s.fifo_head < 128) ∧
          (0 ≤ s.loaded_pages (s.fifo_queue s.fifo_head) ∧
            s.loaded_pages (s.fifo_queue s.fifo_head) ≤ 255)) ∧
        (0 ≤ s.fifo_tail ∧ s.fifo_tail < 128) ∧
        (0 ≤ (handle_page_fault bs s (pageNumber a)).1 ∧
          (handle_page_fault bs s (pageNumber a)).1 < 128) ∧
        (0 ≤ (handle_page_fault bs s (pageNumber a)).1 * 256 ∧
          (handle_page_fault bs s (pageNumber a)).1 * 256 + 255 < 32768)) ∧
      (∀ t : VM,
        (0 ≤ (update_tlb_scan t (loopRange TLB_SIZE) 0).1 ∧
          (update_tlb_scan t (loopRange TLB_SIZE) 0).1 < 16) ∧
        (0 ≤ update_tlb_index t ∧ update_tlb_index t < 16)) ∧
      (0 ≤ (resolve bs s (pageNumber a)).1 ∧ (resolve bs s (pageNumber a)).1 < 128) ∧
      (0 ≤ (translate bs s a).1.physical_address ∧
        (translate bs s a).1.physical_address < 32768) := by
  have h := inv_of_reachable hs
  have hr := pageNumber_range a
  have ho := pageOffset_range a
  have hc0 := h.count_lo
  have hc1 := h.count_hi
  have hh0 := h.head_lo
  have hh1 := h.head_hi
  have hfr := resolve_frame_range h a
  refine ⟨⟨hr.1, by omega⟩, ?_, ?_, ?_, ?_, hfr, ?_⟩
  · intro i hf
    have hi := tlb_find_some hf
    have hres := resolve_hit bs hf
    rw [hres] at hfr
    exact ⟨hi.1, hfr⟩
  · intro hf hpt
    have hm := h.mapped (pageNumber a) hr.1 hr.2 hpt
    exact ⟨hm.1, by omega⟩
  · intro _
    have hfp := handle_page_fault_frame_range h (pageNumber a)
    refine ⟨fun h0 => by omega, ?_, ?_, hfp, by omega⟩
    · intro h0
      have hq : s.fifo_queue s.fifo_head = s.fifo_head := h.queue _ hh0 (by omega)
      have hu := h.used s.fifo_head hh0 (by omega)
      rw [hq]
      exact ⟨⟨hh0, hh1⟩, ⟨hh0, hh1⟩, hu.1, by omega⟩
    · rw [h.tail_eq]; omega
  · intro t
    exact ⟨(update_tlb_scan_range t (loopRange TLB_SIZE) 0
      (fun i hi => by simpa using (mem_loopRange _ _).1 hi) (by decide)).1,
      update_tlb_index_range t⟩
  · show 0 ≤ (resolve bs s (pageNumber a)).1 * PAGE_SIZE + pageOffset a ∧
      (resolve bs s (pageNumber a)).1 * PAGE_SIZE + pageOffset a < 32768
    simp only [PAGE_SIZE]
    omega

theorem index_safety_witness :
    (0 ≤ pageNumber (-70000) ∧ pageNumber (-70000) ≤ 255) ∧
      (∀ i, tlb_find initial (pageNumber (-70000)) = some i →
        (0 ≤ i ∧ i < 16) ∧ (0 ≤ (initial.tlb i).2 ∧ (initial.tlb i).2 < 128)) ∧
      (tlb_find initial (pageNumber (-70000)) = none →
        initial.page_table (pageNumber (-70000)) ≠ -1 →
        0 ≤ initial.page_table (pageNumber (-70000)) ∧
          initial.page_table (pageNumber (-70000)) < 128) ∧
      (takesFault initial (-70000) = true →
        (0 < initial.free_frame_count →
          0 ≤ initial.free_frame_count - 1 ∧ initial.free_frame_count - 1 < 128) ∧
        (¬ 0 < initial.free_frame_count →
          (0 ≤ initial.fifo_head ∧ initial.fifo_head < 128) ∧
          (0 ≤ initial.fifo_queue initial.fifo_head ∧
            initial.fifo_queue initial.fifo_head < 128) ∧
          (0 ≤ initial.loaded_pages (initial.fifo_queue initial.fifo_head) ∧
            initial.loaded_pages (initial.fifo_queue initial.fifo_head) ≤ 255)) ∧
        (0 ≤ initial.fifo_tail ∧ initial.fifo_tail < 128) ∧
        (0 ≤ (handle_page_fault sampleStore initial (pageNumber (-70000))).1 ∧
          (handle_page_fault sampleStore initial (pageNumber (-70000))).1 < 128) ∧
        (0 ≤ (handle_page_fault sampleStore initial (pageNumber (-70000))).1 * 256 ∧
          (handle_page_fault sampleStore initial (pageNumber (-70000))).1 * 256 + 255
            < 32768)) ∧
      (∀ t : VM,
        (0 ≤ (update_tlb_scan t (loopRange TLB_SIZE) 0).1 ∧
          (update_tlb_scan t (loopRange TLB_SIZE) 0).1 < 16) ∧
        (0 ≤ update_tlb_index t ∧ update_tlb_index t < 16)) ∧
      (0 ≤ (resolve sampleStore initial (pageNumber (-70000))).1 ∧
        (resolve sampleStore initial (pageNumber (-70000))).1 < 128) ∧
      (0 ≤ (translate sampleStore initial (-70000)).1.physical_address ∧
        (translate sampleStore initial (-70000)).1.physical_address < 32768) :=
  index_safety sampleStore initial Reachable.init (-70000)

/-! ## FIFO ring-buffer integrity (C20) -/

theorem fifo_queue_ring {bs : BackingStore} {s : VM} (h : Inv bs s) (j : Int)
    (hj0 : 0 ≤ j) (hj1 : j < 128 - s.free_frame_count) :
    s.fifo_queue ((s.fifo_head + j) % 128) = (s.fifo_head + j) % 128 := by
  have hh0 := h.head_lo
  have hh1 := h.head_hi
  have hc0 := h.count_lo
  by_cases h0 : 0 < s.free_frame_count
  · have hz := h.head_zero h0
    exact h.queue _ (by omega) (by omega)
  · exact h.queue _ (by omega) (by omega)

theorem mem_fifoSegment {bs : BackingStore} {s : VM} (h : Inv bs s) (f : Int) :
    f ∈ fifoSegment s ↔
      ∃ j, (0 ≤ j ∧ j < 128 - s.free_frame_count) ∧ (s.fifo_head + j) % 128 = f := by
  have hc1 := h.count_hi
  unfold fifoSegment
  rw [List.mem_map]
  constructor
  · rintro ⟨j, hj, hf⟩
    have hr := (mem_loopRange _ _).1 hj
    have hj1 : j < 128 - s.free_frame_count := by omega
    rw [fifo_queue_ring h j hr.1 hj1] at hf
    exact ⟨j, ⟨hr.1, hj1⟩, hf⟩
  · rintro ⟨j, ⟨hj0, hj1⟩, hf⟩
    refine ⟨j, (mem_loopRange _ _).2 ⟨hj0, by omega⟩, ?_⟩
    rw [fifo_queue_ring h j hj0 hj1]
    exact hf

/-- C20: in every reachable state the ring segment of `fifo_queue` from
`fifo_head` up to `fifo_tail` has `128 - free_frame_count` entries (the whole
ring when the pool is empty, where `fifo_head = fifo_tail`), lists every
occupied frame exactly once and lists no free frame.  Consequently the slot
`fifo_tail` written by an enqueue holds no entry still waiting: with a free
frame left it lies outside the segment, and on the eviction branch it is the
slot of the entry dequeued just before. -/
theorem fifo_ring_integrity (bs : BackingStore) (s : VM) (hs : Reachable bs s) :
    s.fifo_tail = (s.fifo_head + (128 - s.free_frame_count)) % 128 ∧
      ((fifoSegment s).length : Int) = 128 - s.free_frame_count ∧
      (fifoSegment s).Nodup ∧
      (∀ f ∈ fifoSegment s, (0 ≤ f ∧ f < 128) ∧ ¬ onFreeStack s f) ∧
      (∀ f, 0 ≤ f → f < 128 → ¬ onFreeStack s f → f ∈ fifoSegment s) ∧
      (0 < s.free_frame_count →
        ∀ j, 0 ≤ j → j < 128 - s.free_frame_count →
          (s.fifo_head + j) % 128 ≠ s.fifo_tail) ∧
      (¬ 0 < s.free_frame_count →
        s.fifo_tail = s.fifo_head ∧
          ∀ j, 1 ≤ j → j < 128 → (s.fifo_head + j) % 128 ≠ s.fifo_tail) := by
  have h := inv_of_reachable hs
  have hh0 := h.head_lo
  have hh1 := h.head_hi
  have hc0 := h.count_lo
  have hc1 := h.count_hi
  have ht := h.tail_eq
  refine ⟨ht, ?_, ?_, ?_, ?_, ?_, ?_⟩
  · unfold fifoSegment
    rw [List.length_map]
    unfold loopRange
    rw [List.length_map, List.length_range]
    omega
  · unfold fifoSegment
    apply List.Nodup.map_on
    · intro x hx y hy hxy
      have hrx := (mem_loopRange _ _).1 hx
      have hry := (mem_loopRange _ _).1 hy
      rw [fifo_queue_ring h x hrx.1 (by omega), fifo_queue_ring h y hry.1 (by omega)] at hxy
      omega
    · exact (loopRange_sorted _).imp (fun hlt => ne_of_lt hlt)
  · intro f hf
    obtain ⟨j, ⟨hj0, hj1⟩, hjf⟩ := (mem_fifoSegment h f).1 hf
    have hfr : 0 ≤ f ∧ f < 128 := by omega
    refine ⟨hfr, ?_⟩
    rw [onFreeStack_iff h f hfr.1 hfr.2]
    by_cases h0 : 0 < s.free_frame_count
    · have hz := h.head_zero h0
      omega
    · omega
  · intro f hf0 hf1 hocc
    rw [onFreeStack_iff h f hf0 hf1] at hocc
    rw [mem_fifoSegment h f]
    by_cases h0 : 0 < s.free_frame_count
    · have hz := h.head_zero h0
      exact ⟨f, ⟨hf0, by omega⟩, by omega⟩
    · exact ⟨(f - s.fifo_head) % 128, ⟨by omega, by omega⟩, by omega⟩
  · intro h0 j hj0 hj1
    have hz := h.head_zero h0
    omega
  · intro h0
    refine ⟨by omega, ?_⟩
    intro j hj0 hj1
    omega

theorem fifo_ring_integrity_witness :
    (run sampleStore [513, 7]).fifo_tail
        = ((run sampleStore [513, 7]).fifo_head
            + (128 - (run sampleStore [513, 7]).free_frame_count)) % 128 ∧
      ((fifoSegment (run sampleStore [513, 7])).length : Int)
        = 128 - (run sampleStore [513, 7]).free_frame_count ∧
      (fifoSegment (run sampleStore [513, 7])).Nodup ∧
      (∀ f ∈ fifoSegment (run sampleStore [513, 7]),
        (0 ≤ f ∧ f < 128) ∧ ¬ onFreeStack (run sampleStore [513, 7]) f) ∧
      (∀ f, 0 ≤ f → f < 128 → ¬ onFreeStack (run sampleStore [513, 7]) f →
        f ∈ fifoSegment (run sampleStore [513, 7])) ∧
      (0 < (run sampleStore [513, 7]).free_frame_count →
        ∀ j, 0 ≤ j → j < 128 - (run sampleStore [513, 7]).free_frame_count →
          ((run sampleStore [513, 7]).fifo_head + j) % 128
            ≠ (run sampleStore [513, 7]).fifo_tail) ∧
      (¬ 0 < (run sampleStore [513, 7]).free_frame_count →
        (run sampleStore [513, 7]).fifo_tail = (run sampleStore [513, 7]).fifo_head ∧
          ∀ j, 1 ≤ j → j < 128 →
            ((run sampleStore [513, 7]).fifo_head + j) % 128
              ≠ (run sampleStore [513, 7]).fifo_tail) :=
  fifo_ring_integrity sampleStore (run sampleStore [513, 7])
    (reachable_run sampleStore [513, 7])

/-! ## TLB replacement order (C11) -/

theorem usesAt_append_lt (l : List Int) (a p : Int) (i : Nat) (hi : i < l.length) :
    usesAt (l ++ [a]) p i = usesAt l p i := by
  unfold usesAt
  rw [List.getElem?_append_left hi]

theorem usesAt_append_last (l : List Int) (a p : Int) :
    usesAt (l ++ [a]) p l.length = decide (pageNumber a = p) := by
  unfold usesAt
  rw [List.getElem?_append_right (Nat.le_refl _)]
  simp

theorem lastUse_append (l : List Int) (a p : Int) :
    lastUse (l ++ [a]) p = if pageNumber a = p then some l.length else lastUse l p := by
  unfold lastUse
  rw [List.length_append, List.length_singleton, List.range_succ, List.reverse_append,
    List.reverse_singleton, List.singleton_append, List.find?_cons, usesAt_append_last]
  by_cases hb : pageNumber a = p
  · simp [hb]
  · simp only [hb, decide_False, if_false]
    apply find?_ext
    intro i hi
    exact usesAt_append_lt l a p i (List.mem_range.1 (List.mem_reverse.1 hi))

theorem lastUse_lt {l : List Int} {p : Int} {t : Nat} (h : lastUse l p = some t) :
    t < l.length := by
  unfold lastUse at h
  exact List.mem_range.1 (List.mem_reverse.1 (List.mem_of_find?_eq_some h))

theorem lastUse_page {l : List Int} {p : Int} {t : Nat} (h : lastUse l p = some t) :
    ∃ a, l[t]? = some a ∧ pageNumber a = p := by
  unfold lastUse at h
  have := List.find?_some h
  unfold usesAt at this
  cases hx : l[t]? with
  | none => rw [hx] at this; exact absurd this Bool.false_ne_true
  | some a =>
    rw [hx] at this
    exact ⟨a, rfl, by simpa using this⟩

theorem lastUse_inj {l : List Int} {p q : Int} {t : Nat} (hp : lastUse l p = some t)
    (hq : lastUse l q = some t) : p = q := by
  obtain ⟨a, ha, hap⟩ := lastUse_page hp
  obtain ⟨b, hb, hbq⟩ := lastUse_page hq
  rw [ha] at hb
  rw [← hap, ← hbq, Option.some.inj hb]

/-- The shape of the state after a TLB miss: `update_tlb` applied to a state
whose stamps are those of `s` and whose TLB rows are those of `s`, some of them
possibly cleared. -/
theorem resolve_miss_shape (bs : BackingStore) {s : VM} {p : Int}
    (hf : tlb_find s p = none) :
    ∃ (t : VM) (f : Int), resolve bs s p = (f, update_tlb t p f) ∧
      t.tlb_usage = s.tlb_usage ∧ t.tlb_counter = s.tlb_counter ∧
      (∀ i, t.tlb i = s.tlb i ∨ t.tlb i = (-1, -1)) ∧
      (¬ (s.page_table p = -1 ∧ ¬ 0 < s.free_frame_count) → t.tlb = s.tlb) ∧
      (s.page_table p = -1 ∧ ¬ 0 < s.free_frame_count →
        t.tlb = tlb_invalidate s.tlb (victimPage s)) := by
  by_cases hpt : s.page_table p = -1
  · refine ⟨(handle_page_fault bs s p).2, (handle_page_fault bs s p).1,
      resolve_fault bs hf hpt, ?_⟩
    by_cases h0 : 0 < s.free_frame_count
    · rw [handle_page_fault_free bs s p h0]
      exact ⟨rfl, rfl, fun i => Or.inl rfl, fun _ => rfl, fun hx => absurd h0 hx.2⟩
    · rw [handle_page_fault_evict bs s p h0]
      refine ⟨rfl, rfl, ?_, fun hx => absurd ⟨hpt, h0⟩ hx, fun _ => rfl⟩
      intro i
      show tlb_invalidate s.tlb _ i = _ ∨ tlb_invalidate s.tlb _ i = _
      rw [tlb_invalidate_apply]
      split
      · exact Or.inr rfl
      · exact Or.inl rfl
  · exact ⟨s, s.page_table p, resolve_mapped bs hf hpt, rfl, rfl, fun i => Or.inl rfl,
      fun _ => rfl, fun hx => absurd hx.1 hpt⟩

/-- Along every run `tlb_counter` counts the calls of `translate`, and the stamp
of a valid TLB row is the number (counted from 1) of the most recent call that
translated its page. -/
theorem tlb_stamps (bs : BackingStore) (addrs : List Int) :
    (run bs addrs).tlb_counter = addrs.length ∧
      ∀ i, 0 ≤ i → i < 16 → ((run bs addrs).tlb i).1 ≠ -1 →
        ∃ t : Nat, lastUse addrs ((run bs addrs).tlb i).1 = some t ∧
          (run bs addrs).tlb_usage i = t + 1 := by
  induction addrs using List.reverseRecOn with
  | nil =>
    refine ⟨rfl, ?_⟩
    intro i hi0 hi1 hv
    have : (run bs []).tlb i = (-1, -1) := initial_tlb i hi0 hi1
    rw [this] at hv
    exact absurd rfl hv
  | append_singleton l a ih =>
    obtain ⟨ihc, ihs⟩ := ih
    have hinv := inv_of_reachable (reachable_run bs l)
    have hpn := pageNumber_ne_neg_one a
    rw [run_append]
    simp only [lastUse_append, List.length_append, List.length_singleton]
    cases hf : tlb_find (run bs l) (pageNumber a) with
    | some j =>
      have hj := tlb_find_some hf
      rw [translate_hit bs hf]
      refine ⟨by show (run bs l).tlb_counter + 1 = _; rw [ihc]; push_cast; ring, ?_⟩
      intro i hi0 hi1 hv
      show ∃ t : Nat, (if pageNumber a = ((run bs l).tlb i).1 then some l.length
          else lastUse l ((run bs l).tlb i).1) = some t ∧
        store (run bs l).tlb_usage j ((run bs l).tlb_counter + 1) i = t + 1
      by_cases hij : i = j
      · rw [hij, hj.2, if_pos rfl, store_apply, if_pos rfl, ihc]
        exact ⟨l.length, rfl, rfl⟩
      · have hne : pageNumber a ≠ ((run bs l).tlb i).1 := by
          intro hx
          exact hij (hinv.tlb_uniq i j hi0 hi1 hj.1.1 hj.1.2 hv (by rw [hj.2, hx]))
        rw [if_neg hne, store_apply, if_neg hij]
        exact ihs i hi0 hi1 hv
    | none =>
      obtain ⟨t, f, hres, hu, hc, hrows, _, _⟩ := resolve_miss_shape bs hf
      have hst : (translate bs (run bs l) a).2 = update_tlb t (pageNumber a) f := by
        simp only [translate, hres]
      rw [hst]
      have hidx := update_tlb_index_range t
      refine ⟨by show t.tlb_counter + 1 = _; rw [hc, ihc]; push_cast; ring, ?_⟩
      intro i hi0 hi1 hv
      simp only [update_tlb, store_apply] at hv ⊢
      by_cases hi : i = update_tlb_index t
      · rw [if_pos hi, if_pos hi, if_pos rfl, hc, ihc]
        exact ⟨l.length, rfl, rfl⟩
      · rw [if_neg hi] at hv ⊢
        rw [if_neg hi, hu]
        rcases hrows i with hrow | hrow
        · rw [hrow] at hv ⊢
          have hne : pageNumber a ≠ ((run bs l).tlb i).1 :=
            fun hx => tlb_find_none hf i hi0 hi1 hx.symm
          rw [if_neg hne]
          exact ihs i hi0 hi1 hv
        · rw [hrow] at hv
          exact absurd rfl hv

theorem victimPage_eq (s : VM) :
    victimPage s = s.loaded_pages (s.fifo_queue s.fifo_head) := rfl

theorem tlb_miss_of_unmapped {bs : BackingStore} {s : VM} (h : Inv bs s) (p : Int)
    (hp : p ≠ -1) (hpt : s.page_table p = -1) :
    ∀ i, 0 ≤ i → i < 16 → (s.tlb i).1 ≠ p := by
  intro i hi0 hi1 hx
  have := h.tlb_ok i hi0 hi1 (by rw [hx]; exact hp)
  rw [hx, hpt] at this
  exact this.2.2.2 this.2.2.1.symm

theorem tlb_find_none_of_miss {s : VM} {p : Int}
    (hmiss : ∀ i, 0 ≤ i → i < 16 → (s.tlb i).1 ≠ p) : tlb_find s p = none := by
  cases hf : tlb_find s p with
  | none => rfl
  | some i =>
    have hi := tlb_find_some hf
    exact absurd hi.2 (hmiss i hi.1.1 hi.1.2)

theorem takesEviction_eq_true {s : VM} {a : Int} :
    takesEviction s a = true ↔ takesFault s a = true ∧ ¬ 0 < s.free_frame_count := by
  simp [takesEviction]

/-- Which TLB row a missing page replaces when all 16 rows are valid. -/
theorem tlb_replacement_rows (bs : BackingStore) (addrs : List Int) (a : Int)
    (hfull : ∀ i, 0 ≤ i → i < 16 → ((run bs addrs).tlb i).1 ≠ -1)
    (hmiss : ∀ i, 0 ≤ i → i < 16 → ((run bs addrs).tlb i).1 ≠ pageNumber a) :
    ∃ j, (0 ≤ j ∧ j < 16) ∧
      ((translate bs (run bs addrs) a).2.tlb j).1 = pageNumber a ∧
      (∀ i, 0 ≤ i → i < 16 → i ≠ j →
        (translate bs (run bs addrs) a).2.tlb i = (run bs addrs).tlb i) ∧
      (evictsCached (run bs addrs) a →
        ((run bs addrs).tlb j).1 = victimPage (run bs addrs)) ∧
      (¬ evictsCached (run bs addrs) a → lruSlot bs addrs j) := by
  have hinv := inv_of_reachable (reachable_run bs addrs)
  have hf := tlb_find_none_of_miss hmiss
  obtain ⟨t, f, hres, hu, _, _, hsame, hev⟩ := resolve_miss_shape bs hf
  have hst : (translate bs (run bs addrs) a).2 = update_tlb t (pageNumber a) f := by
    simp only [translate, hres]
  have hidx := update_tlb_index_range t
  rw [hst]
  refine ⟨update_tlb_index t, hidx, by simp [update_tlb, store_apply], ?_⟩
  by_cases hec : evictsCached (run bs addrs) a
  · obtain ⟨hte, i0, hi0, hv0⟩ := hec
    have hte2 := takesEviction_eq_true.1 hte
    have hpt := (takesFault_eq_true.1 hte2.1).2
    have htlb := hev ⟨hpt, hte2.2⟩
    have hvalid0 := hfull i0 hi0.1 hi0.2
    have hrow : ∀ i, 0 ≤ i → i < 16 → i ≠ i0 → t.tlb i = (run bs addrs).tlb i := by
      intro i h0 h1 hne
      rw [htlb, tlb_invalidate_apply]
      have : ((run bs addrs).tlb i).1 ≠ victimPage (run bs addrs) := by
        intro hx
        exact hne (hinv.tlb_uniq i i0 h0 h1 hi0.1 hi0.2 (hfull i h0 h1) (by rw [hx, hv0]))
      simp [this]
    have hrow0 : t.tlb i0 = (-1, -1) := by
      rw [htlb, tlb_invalidate_apply]
      simp [hi0.1, hi0.2, hv0]
    have hj : update_tlb_index t = i0 := by
      by_contra hne
      have h1 := (update_tlb_index_empty t i0 hi0 (by rw [hrow0])).1
      rw [hrow _ hidx.1 hidx.2 hne] at h1
      exact hfull _ hidx.1 hidx.2 h1
    refine ⟨?_, fun _ => by rw [hj]; exact hv0, fun hx => absurd ⟨hte, i0, hi0, hv0⟩ hx⟩
    intro i h0 h1 hne
    simp only [update_tlb, store_apply, if_neg hne]
    exact hrow i h0 h1 (by rw [← hj]; exact hne)
  · have hrow : ∀ i, 0 ≤ i → i < 16 → t.tlb i = (run bs addrs).tlb i := by
      intro i h0 h1
      by_cases hcase : (run bs addrs).page_table (pageNumber a) = -1 ∧
          ¬ 0 < (run bs addrs).free_frame_count
      · rw [hev hcase, tlb_invalidate_apply]
        have : ((run bs addrs).tlb i).1 ≠ victimPage (run bs addrs) := by
          intro hx
          apply hec
          exact ⟨takesEviction_eq_true.2 ⟨takesFault_eq_true.2 ⟨hf, hcase.1⟩, hcase.2⟩,
            i, ⟨h0, h1⟩, hx⟩
        simp [this]
      · rw [hsame hcase]
    refine ⟨?_, fun hx => absurd hx hec, fun _ => ?_⟩
    · intro i h0 h1 hne
      simp only [update_tlb, store_apply, if_neg hne]
      exact hrow i h0 h1
    · have hmin := (update_tlb_index_full t
        (fun i h0 h1 => by rw [hrow i h0 h1]; exact hfull i h0 h1)).1
      obtain ⟨_, hstamp⟩ := tlb_stamps bs addrs
      intro i h0 h1 hne
      obtain ⟨tj, htj, huj⟩ := hstamp _ hidx.1 hidx.2 (hfull _ hidx.1 hidx.2)
      obtain ⟨ti, hti, hui⟩ := hstamp i h0 h1 (hfull i h0 h1)
      refine ⟨tj, ti, htj, hti, ?_⟩
      have hle := hmin i h0 h1
      rw [hu, huj, hui] at hle
      have hneq : tj ≠ ti := by
        intro hx
        rw [hx] at htj
        have := lastUse_inj htj hti
        exact hne (hinv.tlb_uniq i _ h0 h1 hidx.1 hidx.2 (hfull i h0 h1) this.symm)
      omega

/-- A call of `translate` that does not evict leaves every valid TLB row valid. -/
theorem translate_keeps_valid (bs : BackingStore) {s : VM} {a : Int}
    (hne : takesEviction s a = false) (i : Int) (hv : (s.tlb i).1 ≠ -1) :
    ((translate bs s a).2.tlb i).1 ≠ -1 := by
  have hpn := pageNumber_ne_neg_one a
  cases hf : tlb_find s (pageNumber a) with
  | some j => rw [translate_hit bs hf]; exact hv
  | none =>
    obtain ⟨t, f, hres, _, _, _, hsame, _⟩ := resolve_miss_shape bs hf
    have hst : (translate bs s a).2 = update_tlb t (pageNumber a) f := by
      simp only [translate, hres]
    have htlb : t.tlb = s.tlb := by
      apply hsame
      rintro ⟨hpt, h0⟩
      have := takesEviction_eq_true.2 ⟨takesFault_eq_true.2 ⟨hf, hpt⟩, h0⟩
      rw [hne] at this
      exact Bool.false_ne_true this
    rw [hst]
    simp only [update_tlb, store_apply]
    split
    · exact hpn
    · rw [htlb]; exact hv

/-- In a run that touches at most 128 distinct pages the TLB fills from slot 0
upwards: slot `i` is valid once more than `i` distinct pages were translated. -/
theorem cold_tlb_valid (bs : BackingStore) (addrs : List Int)
    (hlen : (distinctPages addrs).length ≤ 128) :
    ∀ i : Int, 0 ≤ i → i < 16 → i < (distinctPages addrs).length →
      ((run bs addrs).tlb i).1 ≠ -1 := by
  induction addrs using List.reverseRecOn with
  | nil =>
    intro i hi0 _ hi
    simp [distinctPages] at hi
    omega
  | append_singleton l a ih =>
    have hinv := inv_of_reachable (reachable_run bs l)
    have hr := pageNumber_range a
    have hpn := pageNumber_ne_neg_one a
    rw [distinctPages_append] at hlen ⊢
    rw [run_append]
    by_cases hmem : pageNumber a ∈ distinctPages l
    · rw [if_pos hmem] at hlen ⊢
      obtain ⟨_, _, _, _, c5, _⟩ := cold_run bs l hlen
      obtain ⟨k, hk⟩ := List.mem_iff_getElem?.1 hmem
      have hpt : (run bs l).page_table (pageNumber a) ≠ -1 := by
        rw [c5 k _ hk]; omega
      have hne : takesEviction (run bs l) a = false := by
        simp [takesEviction, mapped_not_takesFault hpt]
      intro i hi0 hi1 hi
      exact translate_keeps_valid bs hne i (ih hlen i hi0 hi1 hi)
    · rw [if_neg hmem] at hlen ⊢
      rw [List.length_append] at hlen ⊢
      simp only [List.length_singleton] at hlen ⊢
      obtain ⟨_, c2, _, _, _, c6⟩ := cold_run bs l (by omega)
      have hpt : (run bs l).page_table (pageNumber a) = -1 := c6 _ hr.1 hr.2 hmem
      have h0 : 0 < (run bs l).free_frame_count := by rw [c2]; omega
      have hne : takesEviction (run bs l) a = false := by
        simp [takesEviction, h0]
      intro i hi0 hi1 hi
      by_cases hvi : ((run bs l).tlb i).1 = -1
      · have hf := tlb_find_none_of_miss (tlb_miss_of_unmapped hinv _ hpn hpt)
        obtain ⟨t, f, hres, _, _, _, hsame, _⟩ := resolve_miss_shape bs hf
        have hst : (translate bs (run bs l) a).2 = update_tlb t (pageNumber a) f := by
          simp only [translate, hres]
        have htlb : t.tlb = (run bs l).tlb := hsame (fun hx => hx.2 h0)
        have hidx := update_tlb_index_range t
        have hfirst := update_tlb_index_empty t i ⟨hi0, hi1⟩ (by rw [htlb]; exact hvi)
        have hlow : ∀ j : Int, 0 ≤ j → j < i → ((run bs l).tlb j).1 ≠ -1 := by
          intro j hj0 hj1
          exact ih (by omega) j hj0 (by omega) (by omega)
        have hji : update_tlb_index t = i := by
          by_contra hx
          rcases lt_or_gt_of_ne hx with hlt | hgt
          · have := hlow _ hidx.1 hlt
            rw [← htlb] at this
            exact this hfirst.1
          · have := hfirst.2 i hi0 hgt
            rw [htlb] at this
            exact this hvi
        rw [hst]
        simp only [update_tlb, store_apply, if_pos hji.symm]
        exact hpn
      · exact translate_keeps_valid bs hne i hvi

/-- C11 (amended): in every state reached from `init_structures` by `translate`
calls in which all 16 TLB slots are valid, a `translate` of a page that is not
in the TLB puts the page into exactly one slot and leaves the other 15 rows
unchanged.  If the call is a page fault that evicts a page cached in the TLB,
the slot is that page's (its row was cleared first); otherwise it is the slot
of the cached page whose most recent translation (TLB hit or insertion) is
the oldest among the 16 cached pages. -/
theorem tlb_replacement (bs : BackingStore) (addrs : List Int) (a : Int)
    (hfull : ∀ i, 0 ≤ i → i < 16 → ((run bs addrs).tlb i).1 ≠ -1)
    (hmiss : ∀ i, 0 ≤ i → i < 16 → ((run bs addrs).tlb i).1 ≠ pageNumber a) :
    ∃ j, (0 ≤ j ∧ j < 16) ∧
      ((translate bs (run bs addrs) a).2.tlb j).1 = pageNumber a ∧
      (∀ i, 0 ≤ i → i < 16 → i ≠ j →
        (translate bs (run bs addrs) a).2.tlb i = (run bs addrs).tlb i) ∧
      (evictsCached (run bs addrs) a →
        ((run bs addrs).tlb j).1 = victimPage (run bs addrs)) ∧
      (¬ evictsCached (run bs addrs) a → lruSlot bs addrs j) :=
  tlb_replacement_rows bs addrs a hfull hmiss

theorem coldAddrs_tlb_full (bs : BackingStore) :
    ∀ i, 0 ≤ i → i < 16 → ((run bs coldAddrs).tlb i).1 ≠ -1 := by
  intro i hi0 hi1
  apply cold_tlb_valid bs coldAddrs (by rw [coldAddrs_length]) i hi0 hi1
  rw [coldAddrs_length]
  omega

theorem pageNumber_51200 : pageNumber 51200 = 200 := by decide

theorem coldAddrs_tlb_miss (bs : BackingStore) :
    ∀ i, 0 ≤ i → i < 16 → ((run bs coldAddrs).tlb i).1 ≠ pageNumber 51200 := by
  rw [pageNumber_51200]
  exact tlb_miss_of_unmapped (inv_of_reachable (reachable_run bs coldAddrs)) 200 (by decide)
    ((cold_run bs coldAddrs (by rw [coldAddrs_length])).2.2.2.2.2 200 (by decide) (by decide)
      coldAddrs_fresh)

theorem tlb_replacement_witness :
    ∃ j, (0 ≤ j ∧ j < 16) ∧
      ((translate sampleStore (run sampleStore coldAddrs) 51200).2.tlb j).1
        = pageNumber 51200 ∧
      (∀ i, 0 ≤ i → i < 16 → i ≠ j →
        (translate sampleStore (run sampleStore coldAddrs) 51200).2.tlb i
          = (run sampleStore coldAddrs).tlb i) ∧
      (evictsCached (run sampleStore coldAddrs) 51200 →
        ((run sampleStore coldAddrs).tlb j).1 = victimPage (run sampleStore coldAddrs)) ∧
      (¬ evictsCached (run sampleStore coldAddrs) 51200 → lruSlot sampleStore coldAddrs j) :=
  tlb_replacement sampleStore coldAddrs 51200 (coldAddrs_tlb_full sampleStore)
    (coldAddrs_tlb_miss sampleStore)

theorem lruAddrs_distinct : distinctPages lruAddrs = distinctPages coldAddrs := by
  unfold lruAddrs
  rw [distinctPages_append]
  have h0 : pageNumber 0 = 0 := by decide
  have hmem : (0 : Int) ∈ distinctPages coldAddrs :=
    List.mem_iff_getElem?.2 ⟨0, coldAddrs_first⟩
  rw [h0, if_pos hmem]

/-- The state after pages `0 .. 127` were loaded and page `0` was translated once
more: memory is full, all 16 TLB slots are valid, page `0` is cached and is
the page the next fault evicts, and page `200` is neither mapped nor cached. -/
theorem lruAddrs_state (bs : BackingStore) :
    (∀ i, 0 ≤ i → i < 16 → ((run bs lruAddrs).tlb i).1 ≠ -1) ∧
      (∀ i, 0 ≤ i → i < 16 → ((run bs lruAddrs).tlb i).1 ≠ pageNumber 51200) ∧
      victimPage (run bs lruAddrs) = 0 ∧
      evictsCached (run bs lruAddrs) 51200 := by
  have hlen : (distinctPages lruAddrs).length ≤ 128 := by
    rw [lruAddrs_distinct, coldAddrs_length]
  have hinv := inv_of_reachable (reachable_run bs lruAddrs)
  obtain ⟨_, c2, c3, _, c5, c6⟩ := cold_run bs lruAddrs hlen
  rw [lruAddrs_distinct] at c2 c5 c6
  rw [coldAddrs_length] at c2
  have hc : (run bs lruAddrs).free_frame_count = 0 := by rw [c2]; rfl
  have hfull : ∀ i, 0 ≤ i → i < 16 → ((run bs lruAddrs).tlb i).1 ≠ -1 := by
    intro i hi0 hi1
    apply cold_tlb_valid bs lruAddrs hlen i hi0 hi1
    rw [lruAddrs_distinct, coldAddrs_length]
    omega
  have hun : (run bs lruAddrs).page_table 200 = -1 :=
    c6 200 (by decide) (by decide) coldAddrs_fresh
  have hmiss : ∀ i, 0 ≤ i → i < 16 → ((run bs lruAddrs).tlb i).1 ≠ pageNumber 51200 := by
    rw [pageNumber_51200]
    exact tlb_miss_of_unmapped hinv 200 (by decide) hun
  have hpt0 : (run bs lruAddrs).page_table 0 = 0 := by
    have := c5 0 0 coldAddrs_first
    simpa using this
  have hq : (run bs lruAddrs).fifo_queue (run bs lruAddrs).fifo_head = 0 := by
    rw [c3]; exact hinv.queue 0 (by omega) (by omega)
  have hvic : victimPage (run bs lruAddrs) = 0 := by
    rw [victimPage_eq, hq]
    have := (hinv.mapped 0 (by decide) (by decide) (by rw [hpt0]; decide)).2.2
    rw [hpt0] at this
    exact this
  refine ⟨hfull, hmiss, hvic, ?_, ?_⟩
  · rw [takesEviction_eq_true]
    refine ⟨unmapped_takesFault hinv 51200 (by rw [pageNumber_51200]; exact hun), by omega⟩
  · obtain ⟨i, hi, _⟩ := translate_cached bs (run bs coldAddrs) 0
    have hrun : run bs lruAddrs = (translate bs (run bs coldAddrs) 0).2 := by
      unfold lruAddrs
      exact run_append bs coldAddrs 0
    rw [← hrun] at hi
    have h0 : pageNumber 0 = 0 := by decide
    rw [h0] at hi
    have his := tlb_find_some hi
    exact ⟨i, his.1, by rw [his.2, hvic]⟩

set_option maxRecDepth 100000 in
theorem coldAddrs_size : coldAddrs.length = 128 := by decide

theorem lruAddrs_lastUse : lastUse lruAddrs 0 = some 128 := by
  unfold lruAddrs
  rw [lastUse_append]
  have h0 : pageNumber 0 = 0 := by decide
  rw [if_pos h0, coldAddrs_size]

theorem lruAddrs_length : lruAddrs.length = 129 := by
  unfold lruAddrs
  rw [List.length_append, coldAddrs_size]
  rfl

/-- C11, the claim as stated, fails on the run over pages `0 .. 127` followed by
page `0` and then a fault on page `200`: all 16 TLB slots are valid and page
`200` is not cached, yet the row replaced is the row of page `0`, the page
translated most recently, because page `0` is the page the fault evicts. -/
theorem lru_counterexample : ¬ lruReplacement sampleStore lruAddrs 51200 := by
  intro hclaim
  obtain ⟨hfull, hmiss, hvic, hec⟩ := lruAddrs_state sampleStore
  obtain ⟨j, hj, hlru, hpage, hrest⟩ := hclaim hfull hmiss
  obtain ⟨k, hk, hkpage, _, hkv, _⟩ :=
    tlb_replacement_rows sampleStore lruAddrs 51200 hfull hmiss
  have hk0 := hkv hec
  rw [hvic] at hk0
  have hjk : j = k := by
    by_contra hne
    have := hrest k hk.1 hk.2 (fun hx => hne hx.symm)
    rw [this, hk0, pageNumber_51200] at hkpage
    exact absurd hkpage (by decide)
  rw [hjk] at hlru
  have hother : ∃ i : Int, (0 ≤ i ∧ i < 16) ∧ i ≠ k := by
    by_cases h0 : k = 0
    · exact ⟨1, by decide, by omega⟩
    · exact ⟨0, by decide, fun hx => h0 hx.symm⟩
  obtain ⟨i, hi, hik⟩ := hother
  obtain ⟨tj, ti, htj, hti, hlt⟩ := hlru i hi.1 hi.2 hik
  rw [hk0, lruAddrs_lastUse] at htj
  have h1 : tj = 128 := (Option.some.inj htj).symm
  have h2 := lastUse_lt hti
  rw [lruAddrs_length] at h2
  omega

end VirtualMem
